import Mathlib

/-!
Verification of the mortgasimfront interactive state models.

This file shallowly embeds the client-side state logic of the repository:
the Deal Timeline model (`DealTimeline` component), the Overpayment Marker
store (`useOverpaymentStore`), the date / period-index conversions
(`chartSetup.ts`), the request assembler (`transformFormDataToRequest` and
the form's legacy-field sync), and the debounced simulation dispatch
(`useDebouncedSimulation`).  JavaScript numbers that are always produced by
`parseInt` / `Math.round` are embedded as `Int`, decimal numbers
(rates, amounts) as `ℚ`, and wire strings as lists of characters.
-/

namespace Mortgasim

/-! ### Deal Timeline model (`DealTimeline.tsx`)

`interface Deal { start_month: number; end_month: number; rate: number }`.
Every producer of the month fields in the component goes through `parseInt`
or `Math.round`, so the months are embedded as integers; the rate comes from
`parseFloat` and is embedded as a rational. -/

structure Deal where
  start_month : Int
  end_month : Int
  rate : ℚ
deriving DecidableEq, Repr

/-- The half-open-interval overlap test of `wouldOverlap`:
`newDeal.start_month < deal.end_month && newDeal.end_month > deal.start_month`. -/
def dealsOverlap (a b : Deal) : Prop :=
  a.start_month < b.end_month ∧ a.end_month > b.start_month

instance decDealsOverlap (a b : Deal) : Decidable (dealsOverlap a b) :=
  inferInstanceAs (Decidable (_ ∧ _))

/-- `wouldOverlap(newDeal, excludeIndex)`: `deals.some((deal, i) => i === excludeIndex ?
false : overlap-test)`. -/
def wouldOverlap (deals : List Deal) (newDeal : Deal) (excludeIndex : Nat) : Bool :=
  deals.enum.any fun p =>
    if p.1 = excludeIndex then false else decide (dealsOverlap newDeal p.2)

/-- Comparison used by every `sort((a, b) => a.start_month - b.start_month)` call. -/
def dealLE (a b : Deal) : Prop := a.start_month ≤ b.start_month

instance decDealLE : DecidableRel dealLE :=
  fun a b => inferInstanceAs (Decidable (a.start_month ≤ b.start_month))

instance totalDealLE : IsTotal Deal dealLE :=
  ⟨fun a b => Int.le_total a.start_month b.start_month⟩

instance transDealLE : IsTrans Deal dealLE := ⟨fun _ _ _ h h' => le_trans h h'⟩

/-- `[...deals].sort((a, b) => a.start_month - b.start_month)`: a stable sort by
`start_month` (JavaScript array sort is stable), embedded as insertion sort. -/
def sortByStart (deals : List Deal) : List Deal := List.insertionSort dealLE deals

/-- The loop of `findFirstGap` over the sorted deals: the gaps between consecutive
deals, then the gap after the last deal. -/
def findFirstGapLoop (termMonths : Int) : List Deal → Option (Int × Int)
  | [] => none
  | [last] =>
    if last.end_month < termMonths then
      some (last.end_month, min termMonths (last.end_month + 24))
    else none
  | a :: b :: rest =>
    if a.end_month < b.start_month then
      some (a.end_month, min b.start_month (a.end_month + 24))
    else findFirstGapLoop termMonths (b :: rest)

/-- `findFirstGap`: first checks the gap before the first deal (covering the empty
collection), then the gaps between deals, then the gap after the last deal.
Returns the gap start together with the end already clipped to 24 months. -/
def findFirstGap (termMonths : Int) (deals : List Deal) : Option (Int × Int) :=
  match sortByStart deals with
  | [] => some (0, min termMonths 24)
  | first :: rest =>
    if first.start_month > 0 then some (0, min first.start_month 24)
    else findFirstGapLoop termMonths (first :: rest)

/-- `handleAddDeal`: no-op when `findFirstGap` returns `null`; otherwise appends the
new deal spanning the (clipped) gap and re-sorts by `start_month`. -/
def handleAddDeal (termMonths : Int) (deals : List Deal) (rate : ℚ) : List Deal :=
  match findFirstGap termMonths deals with
  | none => deals
  | some gap =>
    sortByStart (deals ++ [{ start_month := gap.1, end_month := gap.2, rate := rate }])

/-- The `'move'` branch of `handleMouseMove`: shift by `delta`, clamp the start at 0,
clamp the end at `termMonths`, and re-derive the start to preserve the duration. -/
def moveDeal (termMonths : Int) (original : Deal) (delta : Int) : Deal :=
  let newStart := max 0 (original.start_month + delta)
  let duration := original.end_month - original.start_month
  let newEnd := min termMonths (newStart + duration)
  let adjustedStart := newEnd - duration
  { original with start_month := max 0 adjustedStart, end_month := newEnd }

/-- The `'resize-start'` branch of `handleMouseMove`. -/
def resizeStartDeal (original : Deal) (currentMonth : Int) : Deal :=
  { original with start_month := max 0 (min (original.end_month - 1) currentMonth) }

/-- The `'resize-end'` branch of `handleMouseMove`. -/
def resizeEndDeal (termMonths : Int) (original : Deal) (currentMonth : Int) : Deal :=
  { original with end_month := min termMonths (max (original.start_month + 1) currentMonth) }

/-- The commit step shared by all three drag branches: apply the computed deal at
`dealIndex` only if it passes `wouldOverlap`; otherwise leave the collection as is. -/
def applyDragFrame (deals : List Deal) (dealIndex : Nat) (newDeal : Deal) : List Deal :=
  if wouldOverlap deals newDeal dealIndex then deals else deals.set dealIndex newDeal

/-- `handleDeleteDeal`: `deals.filter((_, i) => i !== index)`, i.e. erase at `index`. -/
def handleDeleteDeal (deals : List Deal) (index : Nat) : List Deal :=
  deals.eraseIdx index

/-- The three numeric fields editable from the companion list view.  The month
fields go through `parseInt`, the rate through `parseFloat`. -/
inductive DealFieldEdit where
  | startMonth (value : Int)
  | endMonth (value : Int)
  | rateField (value : ℚ)
deriving DecidableEq, Repr

/-- `{ ...newDeals[index], [field]: value }`. -/
def applyFieldEdit (d : Deal) : DealFieldEdit → Deal
  | .startMonth v => { d with start_month := v }
  | .endMonth v => { d with end_month := v }
  | .rateField v => { d with rate := v }

/-- `handleListFieldChange`: build the updated deal, then reject (returning the
collection unchanged) if the interval inverts, leaves `[0, termMonths]`, or
overlaps another deal; otherwise commit the single-field update. -/
def handleListFieldChange (termMonths : Int) (deals : List Deal) (index : Nat)
    (edit : DealFieldEdit) : List Deal :=
  match deals[index]? with
  | none => deals
  | some d =>
    let updated := applyFieldEdit d edit
    if updated.end_month ≤ updated.start_month then deals
    else if updated.start_month < 0 ∨ updated.end_month > termMonths then deals
    else if wouldOverlap deals updated index then deals
    else deals.set index updated

/-- The first gap of the timeline exactly as the spec words it (unclipped):
scanning the deals in `start_month` order, the gap before the first deal, then
the first gap between consecutive deals, then the gap after the last deal.
`findFirstGap` is this scan with the gap end clipped to `gap_start + 24`. -/
def firstGapSpecLoop (termMonths : Int) : List Deal → Option (Int × Int)
  | [] => none
  | [last] =>
    if last.end_month < termMonths then some (last.end_month, termMonths) else none
  | a :: b :: rest =>
    if a.end_month < b.start_month then some (a.end_month, b.start_month)
    else firstGapSpecLoop termMonths (b :: rest)

def firstGapSpec (termMonths : Int) (deals : List Deal) : Option (Int × Int) :=
  match sortByStart deals with
  | [] => if 0 < termMonths then some (0, termMonths) else none
  | first :: rest =>
    if first.start_month > 0 then some (0, first.start_month)
    else firstGapSpecLoop termMonths (first :: rest)

/-- One user-level mutation of the Deal Timeline.  Drag frames (`move`,
`resizeStart`, `resizeEnd`) act on the deal currently at `index`. -/
inductive DealOp where
  | add (rate : ℚ)
  | remove (index : Nat)
  | move (index : Nat) (delta : Int)
  | resizeStart (index : Nat) (month : Int)
  | resizeEnd (index : Nat) (month : Int)
  | edit (index : Nat) (edit : DealFieldEdit)
deriving DecidableEq, Repr

/-- Apply one Deal Timeline operation. -/
def dealStep (termMonths : Int) (deals : List Deal) : DealOp → List Deal
  | .add rate => handleAddDeal termMonths deals rate
  | .remove i => handleDeleteDeal deals i
  | .move i delta =>
    match deals[i]? with
    | none => deals
    | some d => applyDragFrame deals i (moveDeal termMonths d delta)
  | .resizeStart i m =>
    match deals[i]? with
    | none => deals
    | some d => applyDragFrame deals i (resizeStartDeal d m)
  | .resizeEnd i m =>
    match deals[i]? with
    | none => deals
    | some d => applyDragFrame deals i (resizeEndDeal termMonths d m)
  | .edit i e => handleListFieldChange termMonths deals i e

/-- Apply a sequence of Deal Timeline operations in dispatch order. -/
def dealRun (termMonths : Int) (deals : List Deal) (ops : List DealOp) : List Deal :=
  ops.foldl (dealStep termMonths) deals

/-- The spec's no-overlap invariant: for every pair of distinct deals `A`, `B`,
`NOT (A.start_month < B.end_month AND A.end_month > B.start_month)`. -/
def NoOverlaps (deals : List Deal) : Prop :=
  ∀ i, (hi : i < deals.length) → ∀ j, (hj : j < deals.length) → i ≠ j →
    ¬ dealsOverlap deals[i] deals[j]

/-- The spec's bounds invariant for one deal: `0 ≤ start_month < end_month ≤ term`. -/
def DealInBounds (termMonths : Int) (d : Deal) : Prop :=
  0 ≤ d.start_month ∧ d.start_month < d.end_month ∧ d.end_month ≤ termMonths

/-- A well-formed collection: pairwise non-overlapping and within bounds. -/
def WFDeals (termMonths : Int) (deals : List Deal) : Prop :=
  NoOverlaps deals ∧ ∀ d ∈ deals, DealInBounds termMonths d

instance decDealInBounds (t : Int) (d : Deal) : Decidable (DealInBounds t d) :=
  inferInstanceAs (Decidable (_ ∧ _))

instance decNoOverlaps (deals : List Deal) : Decidable (NoOverlaps deals) :=
  Nat.decidableBallLT _ _

instance decWFDeals (t : Int) (deals : List Deal) : Decidable (WFDeals t deals) :=
  inferInstanceAs (Decidable (_ ∧ _))

/-! ### Calendar dates (`chartSetup.ts`)

A JavaScript `Date` is modelled by its calendar components: `getFullYear`,
the 0-based `getMonth` exactly as in JS, and the day of month.  A start-date
string `"YYYY-MM-DD"` that parses to a calendar date is modelled by its parsed
components. -/

structure SimDate where
  year : Int
  month : Int
  day : Nat
deriving DecidableEq, Repr

def isLeapYear (y : Int) : Bool :=
  (y % 4 == 0 && y % 100 != 0) || y % 400 == 0

def daysInMonth (y : Int) (m : Int) : Nat :=
  if m = 0 then 31
  else if m = 1 then (if isLeapYear y then 29 else 28)
  else if m = 2 then 31
  else if m = 3 then 30
  else if m = 4 then 31
  else if m = 5 then 30
  else if m = 6 then 31
  else if m = 7 then 31
  else if m = 8 then 30
  else if m = 9 then 31
  else if m = 10 then 30
  else 31

/-- The normalisation the JS `Date` internals perform after `setMonth`: fold an
out-of-range month into the year, then roll a day-of-month that does not exist
in the target month over into the following month(s).  Written with explicit
fuel so it evaluates by `rfl`; fuel `day + 1` always suffices because every
roll removes at least 28 days. -/
def normDM : Nat → Int → Int → Nat → SimDate
  | 0, y, m, d => { year := y, month := m, day := d }
  | fuel + 1, y, m, d =>
    let y1 := y + m.fdiv 12
    let m1 := m.emod 12
    let dim := daysInMonth y1 m1
    if d ≤ dim then { year := y1, month := m1, day := d }
    else normDM fuel y1 (m1 + 1) (d - dim)

/-- `date.setMonth(m)`: set the 0-based month, normalising overflow. -/
def setMonth (dt : SimDate) (m : Int) : SimDate :=
  normDM (dt.day + 1) dt.year m dt.day

/-- `periodIndexToDate` from `chartSetup.ts`: copy the start date and
`result.setMonth(result.getMonth() + periodIndex - 1)`. -/
def periodIndexToDate (periodIndex : Int) (startDate : SimDate) : SimDate :=
  setMonth startDate (startDate.month + periodIndex - 1)

/-- `dateToPeriodIndex` from `chartSetup.ts`:
`(date.getFullYear() - start.getFullYear()) * 12 + (date.getMonth() - start.getMonth()) + 1`. -/
def dateToPeriodIndex (date : SimDate) (startDate : SimDate) : Int :=
  (date.year - startDate.year) * 12 + (date.month - startDate.month) + 1

/-- A calendar date a `"YYYY-MM-DD"` string can parse to: month in `[0, 11]`
(0-based) and day within the month. -/
def ValidDate (dt : SimDate) : Prop :=
  0 ≤ dt.month ∧ dt.month ≤ 11 ∧ 1 ≤ dt.day ∧ dt.day ≤ daysInMonth dt.year dt.month

instance decValidDate (dt : SimDate) : Decidable (ValidDate dt) :=
  inferInstanceAs (Decidable (_ ∧ _))

/-! ### Numeral rendering and parsing (the wire format)

JavaScript template interpolation `${n}` prints a nonnegative number following
the ECMA-262 `Number::toString` rule: positional notation (digits for an
integer, `digits.digits` with no trailing fractional zero for a finite
decimal) when the decimal exponent lies in `(-7, 21]` — that is, when the
value is `0` or in `[10^-6, 10^21)` — and exponential notation (`"1e-7"`)
otherwise.  Strings are modelled as lists of characters.  Recursions carry
explicit fuel so that every rendering function evaluates inside the kernel. -/

/-- Decimal digits of `n`, least significant first (`fuel ≥ n` suffices). -/
def digitsF : Nat → Nat → List Nat
  | 0, _ => []
  | fuel + 1, n => if n = 0 then [] else n % 10 :: digitsF fuel (n / 10)

/-- Decimal numeral of a natural number, most significant digit first
(`0` prints as `"0"`). -/
def renderNat (n : Nat) : List Char :=
  if n = 0 then ['0'] else ((digitsF n n).reverse).map Nat.digitChar

def isDigitChar (c : Char) : Bool :=
  '0' ≤ c && c ≤ '9'

def digitVal (c : Char) : Nat := c.toNat - '0'.toNat

/-- Parse a nonempty all-digit string as a natural number. -/
def parseNatChars (cs : List Char) : Option Nat :=
  if cs.isEmpty then none
  else if cs.all isDigitChar then
    some (cs.foldl (fun acc c => 10 * acc + digitVal c) 0)
  else none

/-- Search upward from `e` for an exponent with `d ∣ 10 ^ e`, within fuel. -/
def decExpGo (d : Nat) : Nat → Nat → Nat
  | 0, e => e
  | fuel + 1, e => if d ∣ 10 ^ e then e else decExpGo d fuel (e + 1)

/-- Least `e` with `d ∣ 10 ^ e` (fuel `d + 1` is enough whenever one exists):
the number of fractional digits in the shortest decimal rendering of a
fraction with reduced denominator `d`. -/
def decExp (d : Nat) : Nat := decExpGo d (d + 1) 0

/-- Numeral of `f` padded with leading zeros to exactly `e` digits. -/
def padDigits (e : Nat) (f : Nat) : List Char :=
  List.replicate (e - (renderNat f).length) '0' ++ renderNat f

/-- Positional notation for a nonnegative finite decimal `q`: the integer
numeral when `q` is whole, otherwise `units.fraction` with the fraction
written to exactly `decExp q.den` digits (the shortest form).  This is what JS
prints for values in the positional range; see `renderAmountJS` for the full
`Number::toString` rule. -/
def renderAmount (q : ℚ) : List Char :=
  let e := decExp q.den
  if e = 0 then renderNat q.num.toNat
  else
    let scaled := q.num.toNat * 10 ^ e / q.den
    renderNat (scaled / 10 ^ e) ++ '.' :: padDigits e (scaled % 10 ^ e)

/-- A nonnegative finite decimal: the value of a nonnegative JS number (every
binary float is a finite decimal fraction). -/
def DecimalRep (q : ℚ) : Prop :=
  0 ≤ q ∧ ∃ k, q.den ∣ 10 ^ k

/-- Strip factors of ten: for positive `n`, `stripTensF n n = (s, z)` with
`n = s * 10 ^ z` and `s` not a multiple of ten (`fuel ≥ n` suffices). -/
def stripTensF : Nat → Nat → Nat × Nat
  | 0, n => (n, 0)
  | fuel + 1, n =>
    if n ≠ 0 ∧ n % 10 = 0 then
      ((stripTensF fuel (n / 10)).1, (stripTensF fuel (n / 10)).2 + 1)
    else (n, 0)

def stripTens (n : Nat) : Nat × Nat := stripTensF n n

/-- Exponential notation `d[.ddd]e±k` (ECMA-262 `Number::toString` when the
decimal exponent falls outside `(-7, 21]`) for a positive finite decimal:
writing `q = s * 10 ^ (n - k)` with `s` the shortest digit string, `k` its
length, it prints the digits of `s` (a point after the first digit when
`k > 1`), then `e`, the sign of `n - 1` and its magnitude — so `10^-7` prints
`1e-7`. -/
def expRender (q : ℚ) : List Char :=
  let d := decExp q.den
  let p := stripTens (q.num.toNat * 10 ^ d / q.den)
  let digs := renderNat p.1
  let n : Int := (digs.length : Int) + p.2 - d
  (match digs with
    | [] => []
    | [c] => [c]
    | c :: cs => c :: '.' :: cs) ++
    'e' :: (if 0 ≤ n - 1 then '+' :: renderNat (n - 1).toNat
            else '-' :: renderNat (1 - n).toNat)

/-- `${q}` for a nonnegative finite decimal `q`, following the JS
`Number::toString` rule: positional notation exactly when `q = 0` or
`10^-6 ≤ q < 10^21` (the thresholds written as kernel-evaluable rationals),
exponential notation otherwise — e.g. `${0.0000001}` prints `"1e-7"`. -/
def renderAmountJS (q : ℚ) : List Char :=
  if q = 0 ∨ (mkRat 1 1000000 ≤ q ∧ q < (1000000000000000000000 : ℚ)) then
    renderAmount q
  else expRender q

/-- Parse a plain decimal numeral (`"123"` or `"123.45"`) as a rational. -/
def parseAmount (cs : List Char) : Option ℚ :=
  match cs.dropWhile (fun c => !(c = '.')) with
  | [] => (parseNatChars cs).map fun n => (n : ℚ)
  | _ :: fracPart =>
    match parseNatChars (cs.takeWhile fun c => !(c = '.')), parseNatChars fracPart with
    | some u, some f => some ((u : ℚ) + (f : ℚ) / 10 ^ fracPart.length)
    | _, _ => none

/-- `pieces.join(sep)`. -/
def joinSep (sep : Char) : List (List Char) → List Char
  | [] => []
  | [p] => p
  | p :: ps => p ++ sep :: joinSep sep ps

/-- Split at every occurrence of `sep` (inverse of `joinSep` for
separator-free pieces). -/
def splitSep (sep : Char) : List Char → List (List Char)
  | [] => [[]]
  | c :: cs =>
    match splitSep sep cs with
    | [] => if c = sep then [[], []] else [[c]]
    | p :: ps => if c = sep then [] :: p :: ps else (c :: p) :: ps

/-- Parse one `"month:amount"` token. -/
def parsePairToken (cs : List Char) : Option (Nat × ℚ) :=
  match splitSep ':' cs with
  | [ms, vs] =>
    match parseNatChars ms, parseAmount vs with
    | some p, some a => some (p, a)
    | _, _ => none
  | _ => none

/-- The hypothetical parse of the overpayment wire string
`"m:a,m:a,..."` back into `(period_index, amount)` pairs. -/
def parseApiChars (cs : List Char) : Option (List (Nat × ℚ)) :=
  (splitSep ',' cs).mapM parsePairToken

/-! ### Overpayment Marker store (`useOverpaymentStore`)

`period_index` values are produced by rounding and clamping to `[1, maxPeriod]`,
so they are embedded as naturals; amounts come from `parseFloat` and are
embedded as rationals.  `generateId` (timestamp plus random suffix) is
modelled by a fresh counter carried in the store. -/

def monthShortNames : List (List Char) :=
  [['J','a','n'], ['F','e','b'], ['M','a','r'], ['A','p','r'], ['M','a','y'],
   ['J','u','n'], ['J','u','l'], ['A','u','g'], ['S','e','p'], ['O','c','t'],
   ['N','o','v'], ['D','e','c']]

/-- `toLocaleDateString('en-GB', { month: 'short', year: 'numeric' })`. -/
def formatShortDate (d : SimDate) : List Char :=
  (monthShortNames.getD (d.month.toNat % 12) []) ++ ' ' :: renderNat d.year.toNat

/-- `generateDateLabel(periodIndex, startDate)`. -/
def generateDateLabel (periodIndex : Nat) (startDate : SimDate) : List Char :=
  formatShortDate (periodIndexToDate (periodIndex : Int) startDate)

structure ChartOverpayment where
  id : Nat
  periodIndex : Nat
  amount : ℚ
  dateLabel : List Char
  isDragging : Bool
deriving DecidableEq, Repr

structure OverpaymentStore where
  chartOverpayments : List ChartOverpayment
  editingId : Option Nat
  startDate : Option SimDate
  nextId : Nat
deriving DecidableEq, Repr

/-- Comparison of `sort((a, b) => a.periodIndex - b.periodIndex)`. -/
def overLE (a b : ChartOverpayment) : Prop := a.periodIndex ≤ b.periodIndex

instance decOverLE : DecidableRel overLE :=
  fun a b => inferInstanceAs (Decidable (a.periodIndex ≤ b.periodIndex))

instance totalOverLE : IsTotal ChartOverpayment overLE :=
  ⟨fun a b => Nat.le_total a.periodIndex b.periodIndex⟩

instance transOverLE : IsTrans ChartOverpayment overLE := ⟨fun _ _ _ h h' => le_trans h h'⟩

def sortByPeriod (ops : List ChartOverpayment) : List ChartOverpayment :=
  List.insertionSort overLE ops

/-- `setStartDate`: store the date and recompute every marker's label. -/
def setStartDate (st : OverpaymentStore) (date : SimDate) : OverpaymentStore :=
  { st with
    startDate := some date,
    chartOverpayments := st.chartOverpayments.map fun op =>
      { op with dateLabel := generateDateLabel op.periodIndex date } }

/-- `addOverpayment`: no-op without a start date; updates the existing marker in
place when one already sits at `periodIndex`; otherwise inserts a fresh marker
and re-sorts by period. -/
def addOverpayment (st : OverpaymentStore) (periodIndex : Nat) (amount : ℚ) :
    OverpaymentStore :=
  match st.startDate with
  | none => st
  | some sd =>
    match st.chartOverpayments.find? (fun op => op.periodIndex == periodIndex) with
    | some existing =>
      { st with
        chartOverpayments := st.chartOverpayments.map fun op =>
          if op.id == existing.id then { op with amount := amount } else op,
        editingId := some existing.id }
    | none =>
      let newOp : ChartOverpayment :=
        { id := st.nextId, periodIndex := periodIndex, amount := amount,
          dateLabel := generateDateLabel periodIndex sd, isDragging := false }
      { st with
        chartOverpayments := sortByPeriod (st.chartOverpayments ++ [newOp]),
        editingId := some newOp.id,
        nextId := st.nextId + 1 }

/-- The `Partial<Omit<ChartOverpayment, 'id'>>` updates the callers pass:
a new period index (drag) and/or a new amount (popover edit). -/
structure OverpaymentUpdates where
  periodIndex : Option Nat
  amount : Option ℚ
deriving DecidableEq, Repr

/-- `updateOverpayment`: merge the updates into the marker with the given id,
recompute its label when the period changed, and re-sort by period. -/
def updateOverpayment (st : OverpaymentStore) (id : Nat) (upd : OverpaymentUpdates) :
    OverpaymentStore :=
  { st with
    chartOverpayments :=
      sortByPeriod (st.chartOverpayments.map fun op =>
        if op.id == id then
          let op1 := match upd.periodIndex with
            | some p => { op with periodIndex := p }
            | none => op
          let op2 := match upd.amount with
            | some a => { op1 with amount := a }
            | none => op1
          match upd.periodIndex, st.startDate with
          | some p, some sd => { op2 with dateLabel := generateDateLabel p sd }
          | _, _ => op2
        else op) }

/-- `removeOverpayment`: drop the marker; clear `editingId` if it pointed at it. -/
def removeOverpayment (st : OverpaymentStore) (id : Nat) : OverpaymentStore :=
  { st with
    chartOverpayments := st.chartOverpayments.filter fun op => !(op.id == id),
    editingId := if st.editingId = some id then none else st.editingId }

/-- `getOverpaymentAtPeriod`. -/
def getOverpaymentAtPeriod (st : OverpaymentStore) (periodIndex : Nat) :
    Option ChartOverpayment :=
  st.chartOverpayments.find? fun op => op.periodIndex == periodIndex

/-- `toApiString`: `null` when the collection is empty, otherwise the markers with
positive amount rendered as `"{periodIndex}:{amount}"` and joined with commas. -/
def toApiString (st : OverpaymentStore) : Option (List Char) :=
  if st.chartOverpayments.length = 0 then none
  else
    some (joinSep ','
      (((st.chartOverpayments.filter fun op => decide (0 < op.amount)).map
        fun op => renderNat op.periodIndex ++ ':' :: renderAmountJS op.amount)))

/-- The store mutations claim C2 ranges over. -/
inductive OverpaymentOp where
  | add (periodIndex : Nat) (amount : ℚ)
  | update (id : Nat) (upd : OverpaymentUpdates)
  | remove (id : Nat)
deriving DecidableEq, Repr

def OverpaymentOp.isUpdate : OverpaymentOp → Bool
  | .update _ _ => true
  | _ => false

def overpaymentStep (st : OverpaymentStore) : OverpaymentOp → OverpaymentStore
  | .add p a => addOverpayment st p a
  | .update id upd => updateOverpayment st id upd
  | .remove id => removeOverpayment st id

def overpaymentRun (st : OverpaymentStore) (ops : List OverpaymentOp) : OverpaymentStore :=
  ops.foldl overpaymentStep st

/-- At most one marker per distinct `period_index`. -/
def AtMostOnePerPeriod (l : List ChartOverpayment) : Prop :=
  ∀ i, (hi : i < l.length) → ∀ j, (hj : j < l.length) → i ≠ j →
    l[i].periodIndex ≠ l[j].periodIndex

instance decAtMostOnePerPeriod (l : List ChartOverpayment) :
    Decidable (AtMostOnePerPeriod l) :=
  Nat.decidableBallLT _ _

/-! ### Request assembler (`transformFormDataToRequest`, `validation.ts`, and the
form's legacy-field sync in `MortgageForm`) -/

structure SavingsAccountData where
  name : List Char
  rate : ℚ
  monthly_contribution : ℚ
  initial_balance : ℚ
  draw_for_repayment : Bool
deriving DecidableEq, Repr

structure CustomOverpayment where
  month : Int
  year : Int
  amount : ℚ
deriving DecidableEq, Repr

inductive OverpaymentType where
  | noneType
  | regular
  | custom
deriving DecidableEq, Repr

structure MortgageFormData where
  start_date : SimDate
  mortgage_amount : ℚ
  term_years : ℚ
  fixed_rate : ℚ
  fixed_term_months : Int
  variable_rate : ℚ
  deals : List Deal
  savings_accounts : List SavingsAccountData
  typical_payment : ℚ
  asset_value : ℚ
  show_years_after_payoff : Int
  overpayment_type : OverpaymentType
  regular_overpayment_amount : Option ℚ
  regular_overpayment_months : Option Nat
  custom_overpayments : List CustomOverpayment
deriving DecidableEq, Repr

/-- `monthYearToPeriodIndex` from `validation.ts`: `new Date(year, month - 1)`
normalises the month into the year; the difference in months from the start
date, plus 1, floored at 1. -/
def monthYearToPeriodIndex (month year : Int) (startDate : SimDate) : Int :=
  let targetYear := year + (month - 1).fdiv 12
  let targetMonth := (month - 1).emod 12
  max 1 ((targetYear - startDate.year) * 12 + (targetMonth - startDate.month) + 1)

def pairPeriodLE (a b : Int × ℚ) : Prop := a.1 ≤ b.1

instance decPairPeriodLE : DecidableRel pairPeriodLE :=
  fun a b => inferInstanceAs (Decidable (a.1 ≤ b.1))

/-- JS falsiness of an optional number (`undefined` or `0`). -/
def falsyNumQ : Option ℚ → Bool
  | none => true
  | some x => x == 0

def falsyNumN : Option Nat → Bool
  | none => true
  | some x => x == 0

/-- `convertOverpaymentsToApiFormat` from `validation.ts`. -/
def convertOverpaymentsToApiFormat (fd : MortgageFormData) : Option (List Char) :=
  match fd.overpayment_type with
  | .noneType => none
  | .regular =>
    if falsyNumQ fd.regular_overpayment_amount || falsyNumN fd.regular_overpayment_months
    then none
    else
      match fd.regular_overpayment_amount, fd.regular_overpayment_months with
      | some amt, some months =>
        some (joinSep ','
          ((List.range months).map fun i => renderNat (i + 1) ++ ':' :: renderAmountJS amt))
      | _, _ => none
  | .custom =>
    if fd.custom_overpayments.isEmpty then none
    else
      let valid := fd.custom_overpayments.filter fun op =>
        decide (op.month ≥ 1 ∧ op.month ≤ 12 ∧ op.year ≥ 2020 ∧ op.amount > 0)
      if valid.isEmpty then none
      else
        let converted := valid.map fun op =>
          (monthYearToPeriodIndex op.month op.year fd.start_date, op.amount)
        let sorted := List.insertionSort pairPeriodLE converted
        some (joinSep ','
          (sorted.map fun op => renderNat op.1.toNat ++ ':' :: renderAmountJS op.2))

structure MortgageRequestPart where
  amount : ℚ
  term_years : ℚ
  fixed_rate : ℚ
  fixed_term_months : Int
  variable_rate : ℚ
  deals : Option (List Deal)
deriving DecidableEq, Repr

structure SavingsRequestPart where
  accounts : List SavingsAccountData
deriving DecidableEq, Repr

structure SimulationRequestPart where
  typical_payment : ℚ
  asset_value : ℚ
  show_years_after_payoff : Int
  overpayments : Option (List Char)
  start_date : SimDate
deriving DecidableEq, Repr

structure SimulationRequest where
  mortgage : MortgageRequestPart
  savings : SavingsRequestPart
  simulation : SimulationRequestPart
deriving DecidableEq, Repr

/-- `transformFormDataToRequest` from the API service module: the deals array is
passed through when nonempty, the legacy `fixed_rate` / `fixed_term_months`
are taken from `deals[0]` when a deal exists, and the overpayment string is
`convertOverpaymentsToApiFormat(formData) || null` (JS `||` also maps the
empty string to `null`). -/
def transformFormDataToRequest (fd : MortgageFormData) : SimulationRequest :=
  let deals : Option (List Deal) :=
    if fd.deals.length > 0 then
      some (fd.deals.map fun d =>
        { start_month := d.start_month, end_month := d.end_month, rate := d.rate })
    else none
  let firstDeal : Option Deal :=
    match deals with
    | some (d :: _) => some d
    | _ => none
  { mortgage :=
      { amount := fd.mortgage_amount
        term_years := fd.term_years
        fixed_rate :=
          match firstDeal with
          | some d => d.rate
          | none => fd.fixed_rate
        fixed_term_months :=
          match firstDeal with
          | some d => d.end_month
          | none => fd.fixed_term_months
        variable_rate := fd.variable_rate
        deals := deals }
    savings :=
      { accounts := fd.savings_accounts.map fun acc =>
          { name := acc.name, rate := acc.rate,
            monthly_contribution := acc.monthly_contribution,
            initial_balance := acc.initial_balance,
            draw_for_repayment := acc.draw_for_repayment } }
    simulation :=
      { typical_payment := fd.typical_payment
        asset_value := fd.asset_value
        show_years_after_payoff := fd.show_years_after_payoff
        overpayments :=
          match convertOverpaymentsToApiFormat fd with
          | none => none
          | some s => if s.isEmpty then none else some s
        start_date := fd.start_date } }

/-- The `onChange` handler the form wires into the `DealTimeline` (`MortgageForm`):
store the new deals and sync the legacy fields from `newDeals[0]`, resetting
them to `0` when the collection empties. -/
def syncLegacyFields (fd : MortgageFormData) (newDeals : List Deal) : MortgageFormData :=
  match newDeals with
  | first :: _ =>
    { fd with
      deals := newDeals
      fixed_rate := first.rate
      fixed_term_months := first.end_month }
  | [] => { fd with deals := [], fixed_rate := 0, fixed_term_months := 0 }

/-! ### Debounced simulation dispatch (`useDebouncedSimulation`)

The hook runs on the single-threaded event loop: `debouncedMutate` cancels any
pending timer and schedules the request after `debounceMs`; `mutate` cancels
any pending timer and dispatches synchronously.  A trace is a time-ordered
list of calls into the hook; a scheduled timer fires as soon as its fire time
is reached (before any later call runs). -/

inductive SimEvent (R : Type) where
  | debounced (t : Nat) (request : R)
  | immediate (t : Nat) (request : R)
deriving DecidableEq, Repr

def SimEvent.time {R : Type} : SimEvent R → Nat
  | .debounced t _ => t
  | .immediate t _ => t

/-- Process the trace: before each call runs, a pending timer whose fire time
has been reached fires (dispatching its request); then the call itself either
re-arms the timer (`debouncedMutate`) or cancels it and dispatches now
(`mutate`).  A timer still pending at the end of the trace fires then.
Returns the dispatched `(time, request)` list in order. -/
def debounceGo {R : Type} (debounceMs : Nat) (pending : Option (Nat × R)) :
    List (SimEvent R) → List (Nat × R)
  | [] =>
    match pending with
    | some p => [p]
    | none => []
  | e :: es =>
    let due : List (Nat × R) :=
      match pending with
      | some p => if p.1 ≤ e.time then [p] else []
      | none => []
    match e with
    | .debounced t r => due ++ debounceGo debounceMs (some (t + debounceMs, r)) es
    | .immediate t r => due ++ (t, r) :: debounceGo debounceMs none es

def runDebounce {R : Type} (debounceMs : Nat) (events : List (SimEvent R)) :
    List (Nat × R) :=
  debounceGo debounceMs none events

/-! ### Invariant-preservation lemmas for the Deal Timeline -/

theorem dealsOverlap_comm {a b : Deal} : dealsOverlap a b ↔ dealsOverlap b a := by
  unfold dealsOverlap
  omega

theorem noOverlaps_iff_pairwise {l : List Deal} :
    NoOverlaps l ↔ l.Pairwise fun a b => ¬ dealsOverlap a b := by
  rw [List.pairwise_iff_getElem]
  constructor
  · intro h i j hi hj hij
    exact h i hi j hj (Nat.ne_of_lt hij)
  · intro h i hi j hj hij
    rcases Nat.lt_or_ge i j with hlt | hge
    · exact h i j hi hj hlt
    · have hlt : j < i := by omega
      intro hov
      exact h j i hj hi hlt (dealsOverlap_comm.mp hov)

theorem wouldOverlap_eq_false {deals : List Deal} {nd : Deal} {k : Nat} :
    wouldOverlap deals nd k = false ↔
      ∀ i, (hi : i < deals.length) → i ≠ k → ¬ dealsOverlap nd deals[i] := by
  unfold wouldOverlap
  rw [List.any_eq_false]
  constructor
  · intro h i hi hik
    have hmem : (i, deals[i]) ∈ deals.enum := by
      rw [List.mem_enum_iff_getElem?]
      exact List.getElem?_eq_getElem hi
    have hfx := h _ hmem
    rw [if_neg hik] at hfx
    intro hp
    exact hfx (decide_eq_true hp)
  · intro h x hx
    rw [List.mem_enum_iff_getElem?] at hx
    obtain ⟨hlt, heq⟩ := List.getElem?_eq_some_iff.mp hx
    by_cases hk : x.1 = k
    · rw [if_pos hk]
      exact Bool.false_ne_true
    · rw [if_neg hk]
      intro hd
      refine h x.1 hlt hk ?_
      rw [heq]
      exact of_decide_eq_true hd

theorem noOverlaps_set {deals : List Deal} {nd : Deal} {k : Nat}
    (h : NoOverlaps deals) (hw : wouldOverlap deals nd k = false) :
    NoOverlaps (deals.set k nd) := by
  rw [wouldOverlap_eq_false] at hw
  intro i hi j hj hij
  have hi' : i < deals.length := by simpa using hi
  have hj' : j < deals.length := by simpa using hj
  simp only [List.getElem_set]
  split_ifs with h1 h2 h2
  · omega
  · exact hw j hj' (by omega)
  · intro hov
    exact hw i hi' (by omega) (dealsOverlap_comm.mp hov)
  · exact h i hi' j hj' hij

theorem noOverlaps_sublist {l l' : List Deal} (hs : List.Sublist l' l) (h : NoOverlaps l) :
    NoOverlaps l' :=
  noOverlaps_iff_pairwise.mpr ((noOverlaps_iff_pairwise.mp h).sublist hs)

theorem noOverlaps_perm {l l' : List Deal} (hp : l.Perm l') (h : NoOverlaps l) :
    NoOverlaps l' :=
  noOverlaps_iff_pairwise.mpr
    ((noOverlaps_iff_pairwise.mp h).perm hp fun hr hov => hr (dealsOverlap_comm.mp hov))

/-- A chained collection: every deal ends no later than any later deal starts. -/
def Chained (l : List Deal) : Prop :=
  l.Pairwise fun a b => a.end_month ≤ b.start_month

theorem sortByStart_perm (deals : List Deal) : (sortByStart deals).Perm deals :=
  List.perm_insertionSort dealLE deals

theorem sortByStart_sorted (deals : List Deal) : (sortByStart deals).Sorted dealLE :=
  List.sorted_insertionSort dealLE deals

/-- A well-formed collection becomes chained once sorted by `start_month`. -/
theorem chained_sortByStart {termMonths : Int} {deals : List Deal}
    (h : WFDeals termMonths deals) : Chained (sortByStart deals) := by
  obtain ⟨hno, hb⟩ := h
  have hno' : NoOverlaps (sortByStart deals) := noOverlaps_perm (sortByStart_perm deals).symm hno
  have hpair := (noOverlaps_iff_pairwise.mp hno').and (sortByStart_sorted deals)
  refine hpair.imp_of_mem ?_
  intro a b ha hbm hab
  have hbin : DealInBounds termMonths b := hb b ((sortByStart_perm deals).mem_iff.mp hbm)
  obtain ⟨hnov, hle⟩ := hab
  unfold dealsOverlap at hnov
  unfold dealLE at hle
  obtain ⟨hb0, hblt, hble⟩ := hbin
  omega

/-- What `findFirstGapLoop` guarantees on a chained in-bounds list: the returned
gap starts at some deal's end, is non-empty, ends within the horizon, and is
disjoint from every deal in the list. -/
theorem findFirstGapLoop_spec {termMonths : Int} {s e : Int} :
    ∀ l : List Deal, Chained l → (∀ d ∈ l, DealInBounds termMonths d) →
      findFirstGapLoop termMonths l = some (s, e) →
      (∃ d ∈ l, s = d.end_month) ∧ s < e ∧ e ≤ termMonths ∧
        ∀ d ∈ l, d.end_month ≤ s ∨ e ≤ d.start_month := by
  intro l
  induction l with
  | nil => intro _ _ hfg; exact absurd hfg (by simp [findFirstGapLoop])
  | cons a tl ih =>
    intro hch hbnd hfg
    cases tl with
    | nil =>
      rw [findFirstGapLoop] at hfg
      split at hfg
      · obtain ⟨hs, he⟩ := Prod.mk.injEq .. ▸ Option.some.inj hfg
        subst hs; subst he
        refine ⟨⟨a, List.mem_singleton_self a, rfl⟩, ?_, ?_, ?_⟩
        · omega
        · omega
        · intro d hd
          rw [List.mem_singleton] at hd
          subst hd
          exact Or.inl le_rfl
      · exact absurd hfg (by simp)
    | cons b rest =>
      rw [findFirstGapLoop] at hfg
      have hbin : DealInBounds termMonths b := hbnd b (by simp)
      split at hfg
      · next hgap =>
        obtain ⟨hs, he⟩ := Prod.mk.injEq .. ▸ Option.some.inj hfg
        subst hs; subst he
        obtain ⟨hb0, hblt, hble⟩ := hbin
        refine ⟨⟨a, by simp, rfl⟩, by omega, by omega, ?_⟩
        intro d hd
        rcases List.mem_cons.mp hd with hd | hd
        · subst hd; exact Or.inl le_rfl
        rcases List.mem_cons.mp hd with hd | hd
        · subst hd; exact Or.inr (by omega)
        · refine Or.inr ?_
          have hchbd : b.end_month ≤ d.start_month :=
            List.rel_of_pairwise_cons (List.pairwise_cons.mp hch).2 hd
          omega
      · next hgap =>
        have hch' : Chained (b :: rest) := (List.pairwise_cons.mp hch).2
        have hbnd' : ∀ d ∈ b :: rest, DealInBounds termMonths d :=
          fun d hd => hbnd d (List.mem_cons_of_mem a hd)
        obtain ⟨⟨d', hd', hsd'⟩, hlt, hle, hsep⟩ := ih hch' hbnd' hfg
        have hch_a : a.end_month ≤ d'.start_month :=
          (List.pairwise_cons.mp hch).1 d' hd'
        have hd'in : DealInBounds termMonths d' := hbnd' d' hd'
        refine ⟨⟨d', List.mem_cons_of_mem a hd', hsd'⟩, hlt, hle, ?_⟩
        intro d hd
        rcases List.mem_cons.mp hd with hd | hd
        · subst hd
          refine Or.inl ?_
          obtain ⟨h0, hlt', hle'⟩ := hd'in
          omega
        · exact hsep d hd

/-- What `findFirstGap` guarantees on a well-formed collection. -/
theorem findFirstGap_spec {termMonths : Int} {deals : List Deal} {s e : Int}
    (hterm : 1 ≤ termMonths) (h : WFDeals termMonths deals)
    (hfg : findFirstGap termMonths deals = some (s, e)) :
    0 ≤ s ∧ s < e ∧ e ≤ termMonths ∧
      ∀ d ∈ deals, d.end_month ≤ s ∨ e ≤ d.start_month := by
  have hperm := sortByStart_perm deals
  have hsorted := sortByStart_sorted deals
  have hch := chained_sortByStart h
  have hbnd : ∀ d ∈ sortByStart deals, DealInBounds termMonths d :=
    fun d hd => h.2 d (hperm.mem_iff.mp hd)
  rw [findFirstGap] at hfg
  split at hfg
  · rename_i hsd
    obtain ⟨hs, he⟩ := Prod.mk.injEq .. ▸ Option.some.inj hfg
    subst hs; subst he
    have hempty : deals = [] := (hsd ▸ hperm).nil_eq.symm
    refine ⟨le_rfl, by omega, by omega, ?_⟩
    intro d hd
    rw [hempty] at hd
    exact absurd hd (List.not_mem_nil d)
  · rename_i first rest hsd
    have hfirst : DealInBounds termMonths first := hbnd first (by rw [hsd]; simp)
    split at hfg
    · rename_i hpos
      obtain ⟨hs, he⟩ := Prod.mk.injEq .. ▸ Option.some.inj hfg
      subst hs; subst he
      obtain ⟨h0, hlt', hle'⟩ := hfirst
      refine ⟨le_rfl, by omega, by omega, ?_⟩
      intro d hd
      have hd' : d ∈ sortByStart deals := hperm.mem_iff.mpr hd
      rw [hsd] at hd'
      refine Or.inr ?_
      rcases List.mem_cons.mp hd' with hd'' | hd''
      · subst hd''; omega
      · have hledl : dealLE first d :=
          List.rel_of_pairwise_cons (hsd ▸ hsorted) hd''
        unfold dealLE at hledl
        omega
    · rename_i hpos
      obtain ⟨⟨d', hd', hsd'⟩, hlt, hle, hsep⟩ :=
        findFirstGapLoop_spec (first :: rest)
          (hsd ▸ hch) (by rw [← hsd]; exact hbnd) hfg
      have hd'in : DealInBounds termMonths d' := by
        refine hbnd d' ?_
        rw [hsd]; exact hd'
      refine ⟨?_, hlt, hle, ?_⟩
      · obtain ⟨h0, hlt', _⟩ := hd'in
        omega
      · intro d hd
        refine hsep d ?_
        rw [← hsd]
        exact hperm.mem_iff.mpr hd

/-- `handleAddDeal` preserves well-formedness: the gap the new deal is placed in
is disjoint from every existing deal. -/
theorem wfDeals_handleAddDeal {termMonths : Int} {deals : List Deal} (rate : ℚ)
    (hterm : 1 ≤ termMonths) (h : WFDeals termMonths deals) :
    WFDeals termMonths (handleAddDeal termMonths deals rate) := by
  unfold handleAddDeal
  cases hfg : findFirstGap termMonths deals with
  | none => exact h
  | some gap =>
    obtain ⟨h0, hlt, hle, hsep⟩ := findFirstGap_spec hterm h hfg
    constructor
    · refine noOverlaps_perm (sortByStart_perm _).symm ?_
      rw [noOverlaps_iff_pairwise, List.pairwise_append]
      refine ⟨noOverlaps_iff_pairwise.mp h.1, List.pairwise_singleton .., ?_⟩
      intro a ha b hb
      rw [List.mem_singleton] at hb
      subst hb
      rcases hsep a ha with hl | hr
      · show ¬ (a.start_month < gap.2 ∧ a.end_month > gap.1)
        omega
      · show ¬ (a.start_month < gap.2 ∧ a.end_month > gap.1)
        omega
    · intro d hd
      have hd' : d ∈ deals ++ [{ start_month := gap.1, end_month := gap.2, rate := rate }] :=
        (sortByStart_perm _).mem_iff.mp hd
      rcases List.mem_append.mp hd' with hdm | hdm
      · exact h.2 d hdm
      · rw [List.mem_singleton] at hdm
        subst hdm
        exact ⟨h0, hlt, hle⟩

theorem dealInBounds_moveDeal {termMonths : Int} {d : Deal} (delta : Int)
    (hterm : 1 ≤ termMonths) (hd : DealInBounds termMonths d) :
    DealInBounds termMonths (moveDeal termMonths d delta) := by
  obtain ⟨h0, hlt, hle⟩ := hd
  unfold moveDeal DealInBounds
  dsimp only
  omega

theorem dealInBounds_resizeStartDeal {termMonths : Int} {d : Deal} (m : Int)
    (hd : DealInBounds termMonths d) :
    DealInBounds termMonths (resizeStartDeal d m) := by
  obtain ⟨h0, hlt, hle⟩ := hd
  unfold resizeStartDeal DealInBounds
  dsimp only
  omega

theorem dealInBounds_resizeEndDeal {termMonths : Int} {d : Deal} (m : Int)
    (hd : DealInBounds termMonths d) :
    DealInBounds termMonths (resizeEndDeal termMonths d m) := by
  obtain ⟨h0, hlt, hle⟩ := hd
  unfold resizeEndDeal DealInBounds
  dsimp only
  omega

/-- The drag commit step preserves well-formedness whenever the candidate deal is
in bounds: overlaps are filtered by the `wouldOverlap` guard. -/
theorem wfDeals_applyDragFrame {termMonths : Int} {deals : List Deal} {i : Nat} {nd : Deal}
    (h : WFDeals termMonths deals) (hnd : DealInBounds termMonths nd) :
    WFDeals termMonths (applyDragFrame deals i nd) := by
  unfold applyDragFrame
  split
  · exact h
  · rename_i hov
    rw [Bool.not_eq_true] at hov
    constructor
    · exact noOverlaps_set h.1 hov
    · intro d hd
      rcases List.mem_or_eq_of_mem_set hd with hdm | hdm
      · exact h.2 d hdm
      · subst hdm
        exact hnd

/-- Every single Deal Timeline operation preserves well-formedness. -/
theorem wfDeals_dealStep {termMonths : Int} {deals : List Deal} (op : DealOp)
    (hterm : 1 ≤ termMonths) (h : WFDeals termMonths deals) :
    WFDeals termMonths (dealStep termMonths deals op) := by
  cases op with
  | add rate => exact wfDeals_handleAddDeal rate hterm h
  | remove i =>
    refine ⟨noOverlaps_sublist (List.eraseIdx_sublist deals i) h.1, ?_⟩
    intro d hd
    exact h.2 d ((List.eraseIdx_sublist deals i).subset hd)
  | move i delta =>
    rw [dealStep]
    cases hgd : deals[i]? with
    | none => exact h
    | some d =>
      have hdm : d ∈ deals := List.getElem?_mem hgd
      exact wfDeals_applyDragFrame h (dealInBounds_moveDeal delta hterm (h.2 d hdm))
  | resizeStart i m =>
    rw [dealStep]
    cases hgd : deals[i]? with
    | none => exact h
    | some d =>
      have hdm : d ∈ deals := List.getElem?_mem hgd
      exact wfDeals_applyDragFrame h (dealInBounds_resizeStartDeal m (h.2 d hdm))
  | resizeEnd i m =>
    rw [dealStep]
    cases hgd : deals[i]? with
    | none => exact h
    | some d =>
      have hdm : d ∈ deals := List.getElem?_mem hgd
      exact wfDeals_applyDragFrame h (dealInBounds_resizeEndDeal m (h.2 d hdm))
  | edit i e =>
    rw [dealStep]
    unfold handleListFieldChange
    cases hgd : deals[i]? with
    | none => exact h
    | some d =>
      dsimp only
      split
      · exact h
      · split
        · exact h
        · split
          · exact h
          · rename_i hinv hbound hov
            rw [Bool.not_eq_true] at hov
            refine ⟨noOverlaps_set h.1 hov, ?_⟩
            intro d' hd'
            rcases List.mem_or_eq_of_mem_set hd' with hdm | hdm
            · exact h.2 d' hdm
            · subst hdm
              refine ⟨?_, ?_, ?_⟩ <;> omega

/-- Any sequence of Deal Timeline operations preserves well-formedness. -/
theorem wfDeals_dealRun {termMonths : Int} (hterm : 1 ≤ termMonths) :
    ∀ (ops : List DealOp) (deals : List Deal), WFDeals termMonths deals →
      WFDeals termMonths (dealRun termMonths deals ops) := by
  intro ops
  induction ops with
  | nil => intro deals h; exact h
  | cons op rest ih =>
    intro deals h
    exact ih (dealStep termMonths deals op) (wfDeals_dealStep op hterm h)

/-- The code's `findFirstGap` is the spec's first-gap scan with the gap end
clipped to `gap_start + 24` (loop part). -/
theorem findFirstGapLoop_eq_clip (termMonths : Int) :
    ∀ l : List Deal, findFirstGapLoop termMonths l =
      (firstGapSpecLoop termMonths l).map fun g => (g.1, min g.2 (g.1 + 24))
  | [] => rfl
  | [last] => by
    rw [findFirstGapLoop, firstGapSpecLoop]
    split <;> simp
  | a :: b :: rest => by
    rw [findFirstGapLoop, firstGapSpecLoop]
    split
    · simp
    · exact findFirstGapLoop_eq_clip termMonths (b :: rest)

/-- The code's `findFirstGap` is the spec's first-gap scan with the gap end
clipped to `gap_start + 24`. -/
theorem findFirstGap_eq_clip {termMonths : Int} (hterm : 1 ≤ termMonths)
    (deals : List Deal) :
    findFirstGap termMonths deals =
      (firstGapSpec termMonths deals).map fun g => (g.1, min g.2 (g.1 + 24)) := by
  rw [findFirstGap, firstGapSpec]
  split
  · rw [if_pos (by omega : (0 : Int) < termMonths)]
    simp
  · split
    · simp
    · apply findFirstGapLoop_eq_clip

/-- A spec-level first gap found by the loop is always nonempty. -/
theorem firstGapSpecLoop_lt {termMonths : Int} {gs ge : Int} :
    ∀ {l : List Deal}, firstGapSpecLoop termMonths l = some (gs, ge) → gs < ge
  | [], hg => by simp [firstGapSpecLoop] at hg
  | [last], hg => by
    rw [firstGapSpecLoop] at hg
    split at hg
    · obtain ⟨hs, he⟩ := Prod.mk.injEq .. ▸ Option.some.inj hg
      omega
    · simp at hg
  | _ :: b :: rest, hg => by
    rw [firstGapSpecLoop] at hg
    split at hg
    · obtain ⟨hs, he⟩ := Prod.mk.injEq .. ▸ Option.some.inj hg
      omega
    · exact firstGapSpecLoop_lt hg

/-- A spec-level first gap is always nonempty. -/
theorem firstGapSpec_lt {termMonths : Int} {deals : List Deal} {gs ge : Int}
    (hg : firstGapSpec termMonths deals = some (gs, ge)) : gs < ge := by
  rw [firstGapSpec] at hg
  split at hg
  · split at hg
    · obtain ⟨hs, he⟩ := Prod.mk.injEq .. ▸ Option.some.inj hg
      omega
    · exact absurd hg (by simp)
  · split at hg
    · obtain ⟨hs, he⟩ := Prod.mk.injEq .. ▸ Option.some.inj hg
      omega
    · exact firstGapSpecLoop_lt hg

/-! ### Claim theorems: the Deal Timeline -/

/-- Claim C1, amended: starting from a collection with no overlaps in which,
as the spec's data model requires, every deal also satisfies
`0 ≤ start_month < end_month ≤ term_months`, every sequence of add / move /
resize-start / resize-end / editField operations keeps the no-overlap
invariant: for every pair of distinct deals `A`, `B`,
`NOT (A.start_month < B.end_month AND A.end_month > B.start_month)`. -/
theorem c1_no_overlap_invariant {termMonths : Int} {deals : List Deal}
    (ops : List DealOp) (hterm : 1 ≤ termMonths) (h : WFDeals termMonths deals) :
    NoOverlaps (dealRun termMonths deals ops) :=
  (wfDeals_dealRun hterm ops deals h).1

theorem c1_no_overlap_invariant_witness :
    (1 : Int) ≤ 300 ∧ WFDeals 300 [⟨0, 24, 2⟩] ∧
      NoOverlaps (dealRun 300 [⟨0, 24, 2⟩]
        [DealOp.add 3, DealOp.move 0 5, DealOp.resizeEnd 1 40,
          DealOp.edit 0 (.startMonth 2)]) :=
  ⟨by decide, by decide,
    c1_no_overlap_invariant
      [DealOp.add 3, DealOp.move 0 5, DealOp.resizeEnd 1 40,
        DealOp.edit 0 (.startMonth 2)] (by decide) (by decide)⟩

/-- Claim C1, counterexample: the collection `[{0, 30}, {0, 0}]` has no
overlaps under the claim's own test (the zero-width deal `[0, 0)` overlaps
nothing), yet a single `add` places the new deal at `[0, 24)` on top of
`[0, 30)` — so the claim is false when the starting collection is only
assumed overlap-free. -/
theorem c1_counterexample :
    NoOverlaps [⟨0, 30, 2⟩, ⟨0, 0, 3⟩] ∧
      ¬ NoOverlaps (dealRun 300 [⟨0, 30, 2⟩, ⟨0, 0, 3⟩] [DealOp.add 5]) :=
  ⟨by decide, by decide⟩

/-- Claim C6: when the spec-level first gap (scanning before the first deal,
between consecutive deals, then after the last deal) is `[gs, ge)`, `add(rate)`
inserts a deal with `start_month = gs` and `end_month = min ge (gs + 24)` and
re-sorts by `start_month`; when no gap exists, `add` is a silent no-op. -/
theorem c6_gap_add_placement {termMonths : Int} {deals : List Deal} (rate : ℚ)
    (hterm : 1 ≤ termMonths) :
    (∀ gs ge, firstGapSpec termMonths deals = some (gs, ge) →
      gs < ge ∧
      handleAddDeal termMonths deals rate =
        sortByStart (deals ++
          [{ start_month := gs, end_month := min ge (gs + 24), rate := rate }])) ∧
    (firstGapSpec termMonths deals = none →
      handleAddDeal termMonths deals rate = deals) := by
  constructor
  · intro gs ge hg
    refine ⟨firstGapSpec_lt hg, ?_⟩
    unfold handleAddDeal
    rw [findFirstGap_eq_clip hterm, hg]
    rfl
  · intro hg
    unfold handleAddDeal
    rw [findFirstGap_eq_clip hterm, hg]
    rfl

theorem c6_gap_add_placement_witness :
    (1 : Int) ≤ 300 ∧
      firstGapSpec 300 [⟨0, 24, 2⟩, ⟨36, 48, 3⟩] = some (24, 36) ∧
      (24 : Int) < 36 ∧
      handleAddDeal 300 [⟨0, 24, 2⟩, ⟨36, 48, 3⟩] 5 =
        sortByStart ([⟨0, 24, 2⟩, ⟨36, 48, 3⟩] ++ [⟨24, min 36 (24 + 24), 5⟩]) := by
  have h := (@c6_gap_add_placement 300 [⟨0, 24, 2⟩, ⟨36, 48, 3⟩] 5
    (by decide)).1 24 36 (by decide)
  exact ⟨by decide, by decide, h.1, h.2⟩

/-- Claim C7: a drag of `delta` months on an in-bounds deal shifts the interval
while preserving its duration and rate, clamping `start_month` at 0 and
`end_month` at `term_months` (re-deriving the start at the right edge); the
frame is committed only when it passes the overlap test and the collection is
left unchanged otherwise.  In particular `{10, 34, 2.0}` on a 300-month
timeline moves by `+5` to `{15, 39, 2.0}` and by `+300` to `{276, 300, 2.0}`. -/
theorem c7_move_displacement {termMonths : Int} {deals : List Deal} {index : Nat}
    {d : Deal} (delta : Int) (hd : deals[index]? = some d)
    (hb : DealInBounds termMonths d) :
    (moveDeal termMonths d delta).end_month - (moveDeal termMonths d delta).start_month
        = d.end_month - d.start_month ∧
    0 ≤ (moveDeal termMonths d delta).start_month ∧
    (moveDeal termMonths d delta).end_month ≤ termMonths ∧
    (moveDeal termMonths d delta).rate = d.rate ∧
    (wouldOverlap deals (moveDeal termMonths d delta) index = true →
      dealStep termMonths deals (.move index delta) = deals) ∧
    (wouldOverlap deals (moveDeal termMonths d delta) index = false →
      dealStep termMonths deals (.move index delta) =
        deals.set index (moveDeal termMonths d delta)) ∧
    moveDeal 300 ⟨10, 34, 2⟩ 5 = ⟨15, 39, 2⟩ ∧
    moveDeal 300 ⟨10, 34, 2⟩ 300 = ⟨276, 300, 2⟩ := by
  obtain ⟨h0, hlt, hle⟩ := hb
  refine ⟨?_, ?_, ?_, ?_, ?_, ?_, by decide, by decide⟩
  · unfold moveDeal; dsimp only; omega
  · unfold moveDeal; dsimp only; omega
  · unfold moveDeal; dsimp only; omega
  · rfl
  · intro hov
    rw [dealStep]
    rw [hd]
    dsimp only
    unfold applyDragFrame
    rw [if_pos hov]
  · intro hov
    rw [dealStep]
    rw [hd]
    dsimp only
    unfold applyDragFrame
    rw [if_neg (by rw [hov]; exact Bool.false_ne_true)]

theorem c7_move_displacement_witness :
    ([(⟨10, 34, 2⟩ : Deal)])[0]? = some ⟨10, 34, 2⟩ ∧
      DealInBounds 300 ⟨10, 34, 2⟩ ∧
      (moveDeal 300 ⟨10, 34, 2⟩ 5).end_month - (moveDeal 300 ⟨10, 34, 2⟩ 5).start_month
        = (34 : Int) - 10 ∧
      moveDeal 300 ⟨10, 34, 2⟩ 5 = ⟨15, 39, 2⟩ ∧
      moveDeal 300 ⟨10, 34, 2⟩ 300 = ⟨276, 300, 2⟩ := by
  have h := @c7_move_displacement 300 [⟨10, 34, 2⟩] 0 ⟨10, 34, 2⟩ 5
    (by decide) (by decide)
  exact ⟨by decide, by decide, h.1, h.2.2.2.2.2.2.1, h.2.2.2.2.2.2.2⟩

/-- Claim C8: a list-view edit of `start_month`, `end_month`, or `rate` that
would invert the interval, push either bound outside `[0, term_months]`, or
overlap another deal leaves the collection completely unchanged (the model is
a total function, so no exception can escape); a valid edit commits exactly
the one edited field of the targeted deal. -/
theorem c8_edit_field_rejection {termMonths : Int} {deals : List Deal} {index : Nat}
    {d : Deal} (edit : DealFieldEdit) (hd : deals[index]? = some d) :
    ((applyFieldEdit d edit).end_month ≤ (applyFieldEdit d edit).start_month ∨
      (applyFieldEdit d edit).start_month < 0 ∨
      termMonths < (applyFieldEdit d edit).start_month ∨
      (applyFieldEdit d edit).end_month < 0 ∨
      termMonths < (applyFieldEdit d edit).end_month ∨
      wouldOverlap deals (applyFieldEdit d edit) index = true →
      handleListFieldChange termMonths deals index edit = deals) ∧
    ((applyFieldEdit d edit).start_month < (applyFieldEdit d edit).end_month →
      0 ≤ (applyFieldEdit d edit).start_month →
      (applyFieldEdit d edit).end_month ≤ termMonths →
      wouldOverlap deals (applyFieldEdit d edit) index = false →
      handleListFieldChange termMonths deals index edit =
        deals.set index (applyFieldEdit d edit)) ∧
    (∀ v, edit = .startMonth v →
      applyFieldEdit d edit = ⟨v, d.end_month, d.rate⟩) ∧
    (∀ v, edit = .endMonth v →
      applyFieldEdit d edit = ⟨d.start_month, v, d.rate⟩) ∧
    (∀ v, edit = .rateField v →
      applyFieldEdit d edit = ⟨d.start_month, d.end_month, v⟩) := by
  refine ⟨?_, ?_, ?_, ?_, ?_⟩
  · intro hrej
    rw [handleListFieldChange, hd]
    dsimp only
    split
    · rfl
    · split
      · rfl
      · rename_i hinv hrange
        have hov : wouldOverlap deals (applyFieldEdit d edit) index = true := by
          rcases hrej with hrej | hrej | hrej | hrej | hrej | hrej
          · exact absurd hrej hinv
          · exact absurd (Or.inl hrej) hrange
          · exact absurd hrej (by omega)
          · exact absurd hrej (by omega)
          · exact absurd (Or.inr hrej) hrange
          · exact hrej
        rw [if_pos hov]
  · intro hdur hlow hhigh hov
    rw [handleListFieldChange, hd]
    dsimp only
    rw [if_neg (by omega), if_neg (by omega),
      if_neg (by rw [hov]; exact Bool.false_ne_true)]
  · intro v hv; subst hv; rfl
  · intro v hv; subst hv; rfl
  · intro v hv; subst hv; rfl

theorem c8_edit_field_rejection_witness :
    ([(⟨0, 24, 2⟩ : Deal)])[0]? = some ⟨0, 24, 2⟩ ∧
      handleListFieldChange 300 [⟨0, 24, 2⟩] 0 (.endMonth 0) = [⟨0, 24, 2⟩] ∧
      handleListFieldChange 300 [⟨0, 24, 2⟩] 0 (.endMonth 30) = [⟨0, 30, 2⟩] := by
  have h := @c8_edit_field_rejection 300 [⟨0, 24, 2⟩] 0 ⟨0, 24, 2⟩
    (DealFieldEdit.endMonth 0) (by decide)
  have h' := @c8_edit_field_rejection 300 [⟨0, 24, 2⟩] 0 ⟨0, 24, 2⟩
    (DealFieldEdit.endMonth 30) (by decide)
  refine ⟨by decide, ?_, ?_⟩
  · exact h.1 (Or.inl (by decide))
  · rw [h'.2.1 (by decide) (by decide) (by decide) (by decide)]
    decide

/-! ### Lemmas for the Overpayment Marker store -/

theorem atMostOne_iff_pairwise {l : List ChartOverpayment} :
    AtMostOnePerPeriod l ↔ l.Pairwise fun a b => a.periodIndex ≠ b.periodIndex := by
  rw [List.pairwise_iff_getElem]
  constructor
  · intro h i j hi hj hij
    exact h i hi j hj (Nat.ne_of_lt hij)
  · intro h i hi j hj hij
    rcases Nat.lt_or_ge i j with hlt | hge
    · exact h i j hi hj hlt
    · exact fun hc => h j i hj hi (by omega) hc.symm

theorem atMostOne_perm {l l' : List ChartOverpayment} (hp : l.Perm l')
    (h : AtMostOnePerPeriod l) : AtMostOnePerPeriod l' :=
  atMostOne_iff_pairwise.mpr
    ((atMostOne_iff_pairwise.mp h).perm hp fun hr he => hr he.symm)

theorem atMostOne_map {l : List ChartOverpayment} {f : ChartOverpayment → ChartOverpayment}
    (hf : ∀ op, (f op).periodIndex = op.periodIndex)
    (h : AtMostOnePerPeriod l) : AtMostOnePerPeriod (l.map f) := by
  intro i hi j hj hij
  have hi' : i < l.length := by simpa using hi
  have hj' : j < l.length := by simpa using hj
  rw [List.getElem_map, List.getElem_map, hf, hf]
  exact h i hi' j hj' hij

theorem atMostOne_sublist {l l' : List ChartOverpayment} (hs : List.Sublist l' l)
    (h : AtMostOnePerPeriod l) : AtMostOnePerPeriod l' :=
  atMostOne_iff_pairwise.mpr ((atMostOne_iff_pairwise.mp h).sublist hs)

/-- `addOverpayment` preserves the one-marker-per-period invariant. -/
theorem atMostOne_addOverpayment (st : OverpaymentStore) (p : Nat) (a : ℚ)
    (h : AtMostOnePerPeriod st.chartOverpayments) :
    AtMostOnePerPeriod (addOverpayment st p a).chartOverpayments := by
  unfold addOverpayment
  split
  · exact h
  · split
    · dsimp only
      refine atMostOne_map ?_ h
      intro op
      split <;> rfl
    · rename_i sd hfind
      dsimp only
      refine atMostOne_perm (List.perm_insertionSort overLE _).symm ?_
      rw [atMostOne_iff_pairwise, List.pairwise_append]
      refine ⟨atMostOne_iff_pairwise.mp h, List.pairwise_singleton .., ?_⟩
      intro x hx b hb
      rw [List.mem_singleton] at hb
      subst hb
      have hne := List.find?_eq_none.mp hfind x hx
      simpa using hne

/-- `removeOverpayment` preserves the one-marker-per-period invariant. -/
theorem atMostOne_removeOverpayment (st : OverpaymentStore) (id : Nat)
    (h : AtMostOnePerPeriod st.chartOverpayments) :
    AtMostOnePerPeriod (removeOverpayment st id).chartOverpayments :=
  atMostOne_sublist (List.filter_sublist _) h

/-! ### Claim theorems: the Overpayment Marker store -/

/-- Claim C2, amended: for every sequence of `addOverpayment` and
`removeOverpayment` operations (no `updateOverpayment`) starting from a
collection with at most one marker per period, the resulting collection still
has at most one marker per `period_index`; and `addOverpayment` at an occupied
`period_index` updates the existing marker's amount in place — same collection
length, amount rewritten through a map keyed by the existing marker's id, and
that marker marked as editing — instead of inserting a duplicate. -/
theorem c2_single_marker_per_period {st : OverpaymentStore} (ops : List OverpaymentOp)
    (hst : AtMostOnePerPeriod st.chartOverpayments)
    (hops : ∀ op ∈ ops, op.isUpdate = false) :
    AtMostOnePerPeriod (overpaymentRun st ops).chartOverpayments ∧
    (∀ (sd : SimDate) (p : Nat) (a : ℚ) (existing : ChartOverpayment),
      st.startDate = some sd →
      getOverpaymentAtPeriod st p = some existing →
      (addOverpayment st p a).chartOverpayments.length = st.chartOverpayments.length ∧
      (addOverpayment st p a).chartOverpayments =
        st.chartOverpayments.map
          (fun op => if op.id == existing.id then { op with amount := a } else op) ∧
      (addOverpayment st p a).editingId = some existing.id) := by
  constructor
  · induction ops generalizing st with
    | nil => exact hst
    | cons op rest ih =>
      refine ih ?_ fun o ho => hops o (List.mem_cons_of_mem op ho)
      have hop := hops op (List.mem_cons_self op rest)
      cases op with
      | add p a => exact atMostOne_addOverpayment st p a hst
      | update id upd => exact absurd hop (by simp [OverpaymentOp.isUpdate])
      | remove id => exact atMostOne_removeOverpayment st id hst
  · intro sd p a existing hsd hfind
    rw [getOverpaymentAtPeriod] at hfind
    unfold addOverpayment
    rw [hsd, hfind]
    dsimp only
    exact ⟨List.length_map .., rfl, rfl⟩

theorem c2_single_marker_per_period_witness :
    AtMostOnePerPeriod
      (OverpaymentStore.mk [] none (some ⟨2025, 0, 1⟩) 0).chartOverpayments ∧
    (∀ op ∈ [OverpaymentOp.add 1 10, OverpaymentOp.add 2 20, OverpaymentOp.add 1 5,
        OverpaymentOp.remove 0], op.isUpdate = false) ∧
    AtMostOnePerPeriod
      (overpaymentRun (OverpaymentStore.mk [] none (some ⟨2025, 0, 1⟩) 0)
        [OverpaymentOp.add 1 10, OverpaymentOp.add 2 20, OverpaymentOp.add 1 5,
          OverpaymentOp.remove 0]).chartOverpayments :=
  ⟨by decide, by decide,
    (c2_single_marker_per_period
      [OverpaymentOp.add 1 10, OverpaymentOp.add 2 20, OverpaymentOp.add 1 5,
        OverpaymentOp.remove 0] (by decide) (by decide)).1⟩

/-- Claim C2, counterexample: `updateOverpayment` can drag a marker onto an
occupied period.  From an empty store, add markers at periods 1 and 2, then
update the second marker's `periodIndex` to 1: the collection now holds two
markers with `period_index = 1`, so the claim is false as stated for sequences
that include `updateOverpayment`. -/
theorem c2_counterexample :
    ¬ AtMostOnePerPeriod
      (overpaymentRun (OverpaymentStore.mk [] none (some ⟨2025, 0, 1⟩) 0)
        [OverpaymentOp.add 1 10, OverpaymentOp.add 2 20,
          OverpaymentOp.update 1 ⟨some 1, none⟩]).chartOverpayments := by
  decide

/-- Claim C3, amended: `toApiString` returns `null` exactly when the marker
collection is empty; a nonempty collection in which no marker has positive
amount yields the empty string, not `null` (the enclosing request assembly
later coalesces the empty string to `null`, but `toApiString` itself does
not). -/
theorem c3_to_api_string_empty (st : OverpaymentStore) :
    (toApiString st = none ↔ st.chartOverpayments = []) ∧
    (st.chartOverpayments ≠ [] → (∀ m ∈ st.chartOverpayments, m.amount ≤ 0) →
      toApiString st = some []) := by
  constructor
  · unfold toApiString
    constructor
    · intro h
      split at h
      · rename_i hlen
        exact List.length_eq_zero.mp hlen
      · exact absurd h (by simp)
    · intro h
      rw [if_pos (by rw [h]; rfl)]
  · intro hne hall
    unfold toApiString
    rw [if_neg (by simpa using fun hc => hne (List.length_eq_zero.mp hc))]
    have hfilter : st.chartOverpayments.filter (fun op => decide (0 < op.amount)) = [] := by
      rw [List.filter_eq_nil_iff]
      intro m hm
      simpa using not_lt.mpr (hall m hm)
    rw [hfilter]
    rfl

theorem c3_to_api_string_empty_witness :
    (OverpaymentStore.mk [⟨0, 5, 0, [], false⟩] none none 1).chartOverpayments ≠ [] ∧
    (∀ m ∈ (OverpaymentStore.mk [⟨0, 5, 0, [], false⟩] none none 1).chartOverpayments,
      m.amount ≤ 0) ∧
    toApiString (OverpaymentStore.mk [⟨0, 5, 0, [], false⟩] none none 1) = some [] :=
  ⟨by decide, by decide,
    (c3_to_api_string_empty (OverpaymentStore.mk [⟨0, 5, 0, [], false⟩] none none 1)).2
      (by decide) (by decide)⟩

/-- Claim C3, counterexample: the one-element collection
`[{period_index: 5, amount: 0}]` has no marker with positive amount, yet
`toApiString` returns the empty string, not `null` — the `null` case only
covers the empty collection. -/
theorem c3_counterexample :
    (∀ m ∈ (OverpaymentStore.mk [⟨0, 5, 0, [], false⟩] none none 1).chartOverpayments,
      ¬ 0 < m.amount) ∧
    toApiString (OverpaymentStore.mk [⟨0, 5, 0, [], false⟩] none none 1) = some [] ∧
    toApiString (OverpaymentStore.mk [⟨0, 5, 0, [], false⟩] none none 1) ≠ none := by
  refine ⟨by decide, by decide, by decide⟩

/-! ### Claim theorems: the request assembler -/

/-- Claim C5, amended: when the form's deals array is nonempty, the assembled
request takes `fixed_rate` and `fixed_term_months` from `deals[0]` — the first
deal in array position, which is the earliest-starting deal whenever the array
is sorted by `start_month` (as it is after every `add`); when the Deal
collection is emptied, the form's sync handler resets both legacy fields to 0
and the assembled request carries those zeros. -/
theorem c5_legacy_field_derivation (fd : MortgageFormData) :
    (∀ d rest, fd.deals = d :: rest →
      (transformFormDataToRequest fd).mortgage.fixed_rate = d.rate ∧
      (transformFormDataToRequest fd).mortgage.fixed_term_months = d.end_month) ∧
    ((transformFormDataToRequest (syncLegacyFields fd [])).mortgage.fixed_rate = 0 ∧
      (transformFormDataToRequest (syncLegacyFields fd [])).mortgage.fixed_term_months
        = 0) ∧
    (∀ d rest, fd.deals = d :: rest → List.Sorted dealLE fd.deals →
      ∀ d' ∈ fd.deals, d.start_month ≤ d'.start_month) := by
  refine ⟨?_, ?_, ?_⟩
  · intro d rest hdeals
    unfold transformFormDataToRequest
    rw [hdeals]
    simp
  · unfold syncLegacyFields transformFormDataToRequest
    simp
  · intro d rest hdeals hsorted d' hd'
    rw [hdeals] at hsorted hd'
    rcases List.mem_cons.mp hd' with hd' | hd'
    · subst hd'; exact le_refl _
    · exact List.rel_of_pairwise_cons hsorted hd'

theorem c5_legacy_field_derivation_witness :
    (MortgageFormData.mk ⟨2025, 0, 1⟩ 200000 25 9 99 6
        [⟨0, 12, 3/2⟩, ⟨12, 24, 2⟩] [] 878 360000 5 .noneType none none []).deals
      = ⟨0, 12, 3/2⟩ :: [⟨12, 24, 2⟩] ∧
    (transformFormDataToRequest
        (MortgageFormData.mk ⟨2025, 0, 1⟩ 200000 25 9 99 6
          [⟨0, 12, 3/2⟩, ⟨12, 24, 2⟩] [] 878 360000 5 .noneType none none
          [])).mortgage.fixed_rate = 3/2 ∧
    (transformFormDataToRequest
        (MortgageFormData.mk ⟨2025, 0, 1⟩ 200000 25 9 99 6
          [⟨0, 12, 3/2⟩, ⟨12, 24, 2⟩] [] 878 360000 5 .noneType none none
          [])).mortgage.fixed_term_months = 12 := by
  have h := (c5_legacy_field_derivation
    (MortgageFormData.mk ⟨2025, 0, 1⟩ 200000 25 9 99 6
      [⟨0, 12, 3/2⟩, ⟨12, 24, 2⟩] [] 878 360000 5 .noneType none none [])).1
    ⟨0, 12, 3/2⟩ [⟨12, 24, 2⟩] rfl
  exact ⟨rfl, h.1, h.2⟩

/-- Claim C5, counterexample: `transformFormDataToRequest` reads `deals[0]` in
array position, not the first deal in `start_month` order.  A form state whose
deals array is `[{12, 24, 2.0}, {0, 12, 1.5}]` (reachable: `move` commits
without re-sorting) assembles `fixed_rate = 2.0`, while the earliest-starting
deal has rate `1.5`. -/
theorem c5_counterexample :
    (transformFormDataToRequest
        (MortgageFormData.mk ⟨2025, 0, 1⟩ 200000 25 9 99 6
          [⟨12, 24, 2⟩, ⟨0, 12, 3/2⟩] [] 878 360000 5 .noneType none none
          [])).mortgage.fixed_rate = 2 ∧
    (sortByStart [⟨12, 24, 2⟩, ⟨0, 12, 3/2⟩]).head? = some ⟨0, 12, 3/2⟩ ∧
    (2 : ℚ) ≠ 3/2 := by
  refine ⟨rfl, rfl, by norm_num⟩

/-! ### Lemmas for the debounce model -/

/-- A burst of debounced triggers, each arriving before the previous timer
fires, leaves exactly the last trigger pending. -/
theorem debounceGo_burst {R : Type} (ms : Nat) :
    ∀ (rest : List (Nat × R)) (t : Nat) (r : R) (tl : Nat) (rl : R),
      List.Chain' (fun a b => b.1 < a.1 + ms) ((t, r) :: rest) →
      ((t, r) :: rest).getLast? = some (tl, rl) →
      debounceGo ms (some (t + ms, r)) (rest.map fun p => SimEvent.debounced p.1 p.2) =
        [(tl + ms, rl)] := by
  intro rest
  induction rest with
  | nil =>
    intro t r tl rl hchain hlast
    obtain ⟨ht, hr⟩ := Prod.mk.injEq .. ▸ Option.some.inj (by simpa using hlast)
    subst ht; subst hr
    rfl
  | cons q rest ih =>
    intro t r tl rl hchain hlast
    obtain ⟨hrel, hchain'⟩ := List.chain'_cons.mp hchain
    rw [List.map_cons, debounceGo]
    dsimp only [SimEvent.time]
    rw [if_neg (by omega), List.nil_append]
    refine ih q.1 q.2 tl rl hchain' ?_
    rw [List.getLast?_cons_cons] at hlast
    exact hlast

/-! ### Claim theorems: debounce -/

/-- Claim C9: in a burst of debounced triggers in which each new trigger
arrives before the pending 500ms timer fires, the timer is cancelled and
restarted each time, so exactly one simulation call is dispatched — at the
last trigger's time plus the debounce delay, carrying the last trigger's
request; and the immediate submission path cancels any pending debounced call
and dispatches synchronously at its own time. -/
theorem c9_debounce_collapse {R : Type} (ms : Nat) :
    (∀ (trigs : List (Nat × R)) (tl : Nat) (rl : R),
      List.Chain' (fun a b => b.1 < a.1 + ms) trigs →
      trigs.getLast? = some (tl, rl) →
      runDebounce ms (trigs.map fun p => SimEvent.debounced p.1 p.2) =
        [(tl + ms, rl)]) ∧
    (∀ (t : Nat) (r : R) (t' : Nat) (r' : R), t' < t + ms →
      runDebounce ms [SimEvent.debounced t r, SimEvent.immediate t' r'] = [(t', r')]) := by
  constructor
  · intro trigs tl rl hchain hlast
    cases trigs with
    | nil => exact absurd hlast (by simp)
    | cons q rest =>
      rw [runDebounce, List.map_cons, debounceGo]
      rw [List.nil_append]
      exact debounceGo_burst ms rest q.1 q.2 tl rl hchain hlast
  · intro t r t' r' hlt
    rw [runDebounce, debounceGo, List.nil_append, debounceGo]
    dsimp only [SimEvent.time]
    rw [if_neg (by omega), List.nil_append, debounceGo]

theorem c9_debounce_collapse_witness :
    List.Chain' (fun a b => b.1 < a.1 + 500) [(0, 1), (100, 2), (200, 3)] ∧
    ([(0, 1), (100, 2), (200, 3)] : List (Nat × Nat)).getLast? = some (200, 3) ∧
    runDebounce 500
      ([(0, 1), (100, 2), (200, 3)].map fun p => SimEvent.debounced p.1 p.2) =
      [(700, 3)] ∧
    runDebounce 500 [SimEvent.debounced 0 (1 : Nat), SimEvent.immediate 100 2] =
      [(100, 2)] := by
  have h := @c9_debounce_collapse Nat 500
  refine ⟨by simp [List.chain'_cons], rfl, ?_, h.2 0 1 100 2 (by omega)⟩
  have hc := h.1 [(0, 1), (100, 2), (200, 3)] 200 3 (by simp [List.chain'_cons]) rfl
  simpa using hc

/-! ### Lemmas for the calendar model -/

set_option maxHeartbeats 2000000 in
theorem daysInMonth_ge (y m : Int) : 28 ≤ daysInMonth y m := by
  unfold daysInMonth
  split_ifs <;> omega

/-- With a day of month at most 28 (hence valid in every month), `setMonth`
never rolls the day over. -/
theorem setMonth_of_day_le {dt : SimDate} {m : Int} (hday : dt.day ≤ 28) :
    setMonth dt m = ⟨dt.year + m.fdiv 12, m.emod 12, dt.day⟩ := by
  unfold setMonth normDM
  dsimp only
  rw [if_pos (le_trans hday (daysInMonth_ge _ _))]

/-! ### Claim theorems: period-index round trip -/

/-- Claim C10, amended: for every parseable start date whose day of month is at
most 28 and every period index `p ≥ 1`,
`dateToPeriodIndex (periodIndexToDate p start) start = p`.  (With day of month
29–31, `setMonth` can roll the date into the following month, and the round
trip returns `p + 1` instead; see the counterexample.) -/
theorem c10_period_index_roundtrip {start : SimDate} {p : Int}
    (hv : ValidDate start) (hday : start.day ≤ 28) (_hp : 1 ≤ p) :
    dateToPeriodIndex (periodIndexToDate p start) start = p := by
  obtain ⟨hm0, hm11, hd1, hdm⟩ := hv
  unfold periodIndexToDate dateToPeriodIndex
  rw [setMonth_of_day_le hday]
  dsimp only
  rw [Int.fdiv_eq_ediv]
  · show (start.year + (start.month + p - 1) / 12 - start.year) * 12 +
        ((start.month + p - 1) % 12 - start.month) + 1 = p
    omega
  · norm_num

theorem c10_period_index_roundtrip_witness :
    ValidDate ⟨2025, 0, 15⟩ ∧ (⟨2025, 0, 15⟩ : SimDate).day ≤ 28 ∧ (1 : Int) ≤ 14 ∧
      dateToPeriodIndex (periodIndexToDate 14 ⟨2025, 0, 15⟩) ⟨2025, 0, 15⟩ = 14 :=
  ⟨by decide, by decide, by decide,
    c10_period_index_roundtrip (by decide) (by decide) (by decide)⟩

/-- Claim C10, counterexample: start date `2025-01-31` (day of month 31).
`periodIndexToDate 2` lands on the nonexistent `Feb 31`, which the `Date`
internals normalise to `Mar 3`, so the round trip returns 3, not 2. -/
theorem c10_counterexample :
    ValidDate ⟨2025, 0, 31⟩ ∧
      periodIndexToDate 2 ⟨2025, 0, 31⟩ = ⟨2025, 2, 3⟩ ∧
      dateToPeriodIndex (periodIndexToDate 2 ⟨2025, 0, 31⟩) ⟨2025, 0, 31⟩ = 3 ∧
      (3 : Int) ≠ 2 := by
  refine ⟨by decide, by decide, by decide, by decide⟩

/-! ### Lemmas for the wire-format numerals -/

theorem digitVal_digitChar {d : Nat} (h : d < 10) : digitVal (Nat.digitChar d) = d := by
  interval_cases d <;> decide

theorem isDigitChar_digitChar {d : Nat} (h : d < 10) :
    isDigitChar (Nat.digitChar d) = true := by
  interval_cases d <;> decide

/-- With enough fuel, `digitsF` is `Nat.digits 10`. -/
theorem digitsF_eq_digits : ∀ fuel n, n ≤ fuel → digitsF fuel n = Nat.digits 10 n := by
  intro fuel
  induction fuel with
  | zero =>
    intro n hn
    have h0 : n = 0 := Nat.le_zero.mp hn
    subst h0
    simp [digitsF]
  | succ fuel ih =>
    intro n hn
    rw [digitsF]
    by_cases h0 : n = 0
    · subst h0; simp
    · have hdiv : n / 10 ≤ fuel := by
        have := Nat.div_lt_self (Nat.pos_of_ne_zero h0) (by norm_num : 1 < 10)
        omega
      rw [if_neg h0, ih (n / 10) hdiv,
        ← Nat.digits_def' (by norm_num : 1 < 10) (Nat.pos_of_ne_zero h0)]

/-- `renderNat` in terms of `Nat.digits`. -/
theorem renderNat_eq (n : Nat) :
    renderNat n =
      if n = 0 then ['0'] else ((Nat.digits 10 n).reverse).map Nat.digitChar := by
  unfold renderNat
  rw [digitsF_eq_digits n n le_rfl]

theorem renderNat_all_digits (n : Nat) : ∀ c ∈ renderNat n, isDigitChar c = true := by
  intro c hc
  rw [renderNat_eq] at hc
  split at hc
  · rw [List.mem_singleton] at hc
    subst hc
    decide
  · rename_i hn
    obtain ⟨d, hd, hdc⟩ := List.mem_map.mp hc
    rw [← hdc]
    exact isDigitChar_digitChar
      (Nat.digits_lt_base (by norm_num) (List.mem_reverse.mp hd))

theorem renderNat_ne_nil (n : Nat) : renderNat n ≠ [] := by
  rw [renderNat_eq]
  split
  · simp
  · rename_i hn
    simp [Nat.digits_ne_nil_iff_ne_zero.mpr hn]

theorem isDigitChar_not_sep {c : Char} (h : isDigitChar c = true) :
    c ≠ '.' ∧ c ≠ ':' ∧ c ≠ ',' := by
  refine ⟨?_, ?_, ?_⟩ <;> intro hc <;> rw [hc] at h <;> exact absurd h (by decide)

/-- The value of a most-significant-first digit rendering, folded left. -/
theorem foldl_reverse_digits (a : Nat) :
    ∀ l : List Nat, (∀ d ∈ l, d < 10) →
      ((l.reverse.map Nat.digitChar).foldl (fun acc c => 10 * acc + digitVal c) a) =
        a * 10 ^ l.length + Nat.ofDigits 10 l := by
  intro l
  induction l generalizing a with
  | nil => intro _; simp
  | cons d l ih =>
    intro hd
    rw [List.reverse_cons, List.map_append, List.foldl_append, ih a fun x hx =>
      hd x (List.mem_cons_of_mem d hx)]
    simp only [List.map_cons, List.map_nil, List.foldl_cons, List.foldl_nil]
    rw [digitVal_digitChar (hd d (List.mem_cons_self d l))]
    rw [Nat.ofDigits_cons, List.length_cons]
    ring

theorem parseNatChars_renderNat (n : Nat) : parseNatChars (renderNat n) = some n := by
  unfold parseNatChars
  rw [if_neg (by simpa using renderNat_ne_nil n)]
  rw [if_pos (by rw [List.all_eq_true]; exact renderNat_all_digits n)]
  rw [renderNat_eq]
  split
  · rename_i hn
    subst hn
    rfl
  · rename_i hn
    rw [foldl_reverse_digits 0 _ fun d hd => Nat.digits_lt_base (by norm_num) hd]
    rw [Nat.ofDigits_digits]
    simp

theorem renderNat_length_le {f e : Nat} (hf : f < 10 ^ e) (he : 1 ≤ e) :
    (renderNat f).length ≤ e := by
  rw [renderNat_eq]
  split
  · simpa using he
  · rename_i hn
    rw [List.length_map, List.length_reverse]
    by_contra hlen
    push_neg at hlen
    have h1 : 10 ^ (Nat.digits 10 f).length ≤ 10 * f :=
      Nat.base_pow_length_digits_le 10 f (by norm_num) hn
    have h2 : 10 * f < 10 * 10 ^ e := by omega
    have h3 : (10 : ℕ) * 10 ^ e = 10 ^ (e + 1) := by ring
    have h4 : 10 ^ (e + 1) ≤ 10 ^ (Nat.digits 10 f).length :=
      Nat.pow_le_pow_right (by norm_num) (by omega)
    omega

/-- Parsing a numeral padded with leading zeros still yields its value. -/
theorem parseNatChars_padDigits {e f : Nat} (_hf : f < 10 ^ e) (_he : 1 ≤ e) :
    parseNatChars (padDigits e f) = some f := by
  unfold padDigits parseNatChars
  rw [if_neg (by simp [renderNat_ne_nil f])]
  rw [if_pos ?hall]
  case hall =>
    rw [List.all_eq_true]
    intro c hc
    rcases List.mem_append.mp hc with hc | hc
    · rw [List.eq_of_mem_replicate hc]
      decide
    · exact renderNat_all_digits f c hc
  rw [List.foldl_append]
  have hzeros : ∀ z, (List.replicate z '0').foldl (fun acc c => 10 * acc + digitVal c) 0
      = 0 := by
    intro z
    induction z with
    | zero => rfl
    | succ z ih => rw [List.replicate_succ, List.foldl_cons]; simpa using ih
  rw [hzeros]
  have := parseNatChars_renderNat f
  unfold parseNatChars at this
  rw [if_neg (by simpa using renderNat_ne_nil f),
    if_pos (by rw [List.all_eq_true]; exact renderNat_all_digits f)] at this
  exact this

theorem padDigits_length {e f : Nat} (hf : f < 10 ^ e) (he : 1 ≤ e) :
    (padDigits e f).length = e := by
  unfold padDigits
  rw [List.length_append, List.length_replicate]
  have := renderNat_length_le hf he
  omega

/-- A divisor of a power of 10 divides a power of 10 with exponent at most
itself (it is `2^i * 5^j` with small `i`, `j`). -/
theorem exists_small_pow_dvd {d k : Nat} (hk : d ∣ 10 ^ k) :
    ∃ e ≤ d, d ∣ 10 ^ e := by
  have h10 : (10 : ℕ) ^ k = 2 ^ k * 5 ^ k := by
    rw [← Nat.mul_pow]
  rw [h10] at hk
  obtain ⟨a, b, ha, hb, hab⟩ := Nat.dvd_mul.mp hk
  obtain ⟨i, hik, hai⟩ := (Nat.dvd_prime_pow Nat.prime_two).mp ha
  obtain ⟨j, hjk, hbj⟩ := (Nat.dvd_prime_pow (by norm_num : Nat.Prime 5)).mp hb
  subst hai
  subst hbj
  subst hab
  refine ⟨max i j, ?_, ?_⟩
  · have hi : i < 2 ^ i := Nat.lt_two_pow i
    have hj : j < 5 ^ j := Nat.lt_pow_self (by norm_num) j
    have h2 : 2 ^ i ≤ 2 ^ i * 5 ^ j :=
      Nat.le_mul_of_pos_right _ (Nat.pos_pow_of_pos j (by norm_num))
    have h5 : 5 ^ j ≤ 2 ^ i * 5 ^ j :=
      Nat.le_mul_of_pos_left _ (Nat.pos_pow_of_pos i (by norm_num))
    exact max_le (by omega) (by omega)
  · have : (10 : ℕ) ^ max i j = 2 ^ max i j * 5 ^ max i j := by
      rw [← Nat.mul_pow]
    rw [this]
    exact Nat.mul_dvd_mul (pow_dvd_pow 2 (le_max_left i j))
      (pow_dvd_pow 5 (le_max_right i j))

/-- `decExpGo` reaches a divisor exponent whenever one lies within fuel. -/
theorem decExpGo_dvd {d : Nat} :
    ∀ (fuel e₀ : Nat), (∃ e, e₀ ≤ e ∧ e < e₀ + fuel ∧ d ∣ 10 ^ e) →
      d ∣ 10 ^ decExpGo d fuel e₀ := by
  intro fuel
  induction fuel with
  | zero =>
    intro e₀ h
    obtain ⟨e, h1, h2, _⟩ := h
    exact absurd (Nat.lt_of_le_of_lt h1 h2) (by omega)
  | succ fuel ih =>
    intro e₀ h
    obtain ⟨e, h1, h2, hd⟩ := h
    rw [decExpGo]
    by_cases hdiv : d ∣ 10 ^ e₀
    · rw [if_pos hdiv]; exact hdiv
    · rw [if_neg hdiv]
      refine ih (e₀ + 1) ⟨e, ?_, by omega, hd⟩
      rcases Nat.lt_or_ge e₀ e with hlt | hge
      · omega
      · have he : e = e₀ := Nat.le_antisymm hge h1
        rw [he] at hd
        exact absurd hd hdiv

/-- For a finite-decimal denominator, `decExp` finds a valid exponent. -/
theorem decExp_dvd {d : Nat} (hk : ∃ k, d ∣ 10 ^ k) : d ∣ 10 ^ decExp d := by
  obtain ⟨k, hk⟩ := hk
  obtain ⟨e, hed, he⟩ := exists_small_pow_dvd hk
  unfold decExp
  exact decExpGo_dvd (d + 1) 0 ⟨e, Nat.zero_le e, by omega, he⟩

/-- Take/drop at the first separator of `A ++ c :: B` when `A` is
separator-free. -/
theorem takeWhile_dropWhile_append {p : Char → Bool} :
    ∀ {A : List Char} {c : Char} {B : List Char}, (∀ x ∈ A, p x = true) → p c = false →
      (A ++ c :: B).takeWhile p = A ∧ (A ++ c :: B).dropWhile p = c :: B := by
  intro A
  induction A with
  | nil =>
    intro c B _ hc
    rw [List.nil_append]
    constructor
    · rw [List.takeWhile_cons, hc]
      simp
    · rw [List.dropWhile_cons, hc]
      simp
  | cons x A ih =>
    intro c B hA hc
    have hx : p x = true := hA x (List.mem_cons_self x A)
    obtain ⟨ht, hd⟩ := ih (fun y hy => hA y (List.mem_cons_of_mem x hy)) hc
    rw [List.cons_append]
    constructor
    · rw [List.takeWhile_cons, hx]
      simpa using ht
    · rw [List.dropWhile_cons, hx]
      simpa using hd



theorem renderAmount_chars {q : ℚ} :
    ∀ c ∈ renderAmount q, isDigitChar c = true ∨ c = '.' := by
  intro c hc
  unfold renderAmount at hc
  dsimp only at hc
  split at hc
  · exact Or.inl (renderNat_all_digits _ c hc)
  · rcases List.mem_append.mp hc with hc | hc
    · exact Or.inl (renderNat_all_digits _ c hc)
    · rcases List.mem_cons.mp hc with hc | hc
      · exact Or.inr hc
      · unfold padDigits at hc
        rcases List.mem_append.mp hc with hc | hc
        · rw [List.eq_of_mem_replicate hc]
          exact Or.inl (by decide)
        · exact Or.inl (renderNat_all_digits _ c hc)

theorem parseAmount_renderAmount {q : ℚ} (hq : DecimalRep q) :
    parseAmount (renderAmount q) = some q := by
  obtain ⟨hq0, hk⟩ := hq
  have hden : q.den ≠ 0 := q.den_nz
  have hdvd : q.den ∣ 10 ^ decExp q.den := decExp_dvd hk
  have hnum0 : 0 ≤ q.num := Rat.num_nonneg.mpr hq0
  unfold renderAmount
  dsimp only
  split
  · rename_i he0
    rw [he0, pow_zero, Nat.dvd_one] at hdvd
    unfold parseAmount
    rw [List.dropWhile_eq_nil_iff.mpr ?hpred]
    case hpred =>
      intro x hx
      have hd := renderNat_all_digits _ x hx
      simp [(isDigitChar_not_sep hd).1]
    rw [parseNatChars_renderNat]
    have hq1 : ((q.num.toNat : ℕ) : ℚ) = q := by
      have h2 : ((q.num.toNat : ℕ) : ℤ) = q.num := Int.toNat_of_nonneg hnum0
      have h3 : ((q.num.toNat : ℕ) : ℚ) = ((q.num : ℤ) : ℚ) := by
        exact_mod_cast congrArg (fun z : ℤ => (z : ℚ)) h2
      rw [h3]
      have h1 := Rat.num_div_den q
      rw [hdvd] at h1
      simpa using h1
    simp [hq1]
  · rename_i he0
    have he1 : 1 ≤ decExp q.den := Nat.one_le_iff_ne_zero.mpr he0
    have hpow0 : 0 < 10 ^ decExp q.den := Nat.pos_pow_of_pos _ (by norm_num)
    obtain ⟨htake, hdrop⟩ := takeWhile_dropWhile_append
      (p := fun c => !decide (c = '.'))
      (A := renderNat (q.num.toNat * 10 ^ decExp q.den / q.den / 10 ^ decExp q.den))
      (c := '.')
      (B := padDigits (decExp q.den) (q.num.toNat * 10 ^ decExp q.den / q.den % 10 ^ decExp q.den))
      (fun x hx => by simp [(isDigitChar_not_sep (renderNat_all_digits _ x hx)).1])
      (by simp)
    unfold parseAmount
    rw [hdrop, htake]
    dsimp only
    rw [parseNatChars_renderNat]
    rw [parseNatChars_padDigits (Nat.mod_lt _ hpow0) he1]
    rw [padDigits_length (Nat.mod_lt _ hpow0) he1]
    dsimp only
    refine congrArg some ?_
    have key1 : q.num.toNat * 10 ^ decExp q.den / q.den / 10 ^ decExp q.den * 10 ^ decExp q.den
        + q.num.toNat * 10 ^ decExp q.den / q.den % 10 ^ decExp q.den
        = q.num.toNat * 10 ^ decExp q.den / q.den := Nat.div_add_mod' _ _
    have key2 : q.num.toNat * 10 ^ decExp q.den / q.den * q.den
        = q.num.toNat * 10 ^ decExp q.den := Nat.div_mul_cancel (hdvd.mul_left _)
    have keyN : (q.num.toNat * 10 ^ decExp q.den / q.den / 10 ^ decExp q.den * 10 ^ decExp q.den
        + q.num.toNat * 10 ^ decExp q.den / q.den % 10 ^ decExp q.den) * q.den
        = q.num.toNat * 10 ^ decExp q.den := by rw [key1, key2]
    have hdq : ((q.den : ℚ)) ≠ 0 := Nat.cast_ne_zero.mpr hden
    have h10 : ((10 : ℚ)) ^ decExp q.den ≠ 0 := by positivity
    have hq1 : ((q.num.toNat : ℕ) : ℚ) = ((q.num : ℤ) : ℚ) := by
      exact_mod_cast congrArg (fun z : ℤ => (z : ℚ)) (Int.toNat_of_nonneg hnum0)
    have keyQ := congrArg (fun n : ℕ => (n : ℚ)) keyN
    push_cast at keyQ
    conv_rhs => rw [← Rat.num_div_den q, ← hq1]
    field_simp
    linear_combination keyQ

theorem splitSep_ne_nil (sep : Char) : ∀ l : List Char, splitSep sep l ≠ []
  | [] => by simp [splitSep]
  | c :: cs => by
    rw [splitSep]
    split <;> split <;> simp

theorem splitSep_of_not_mem {sep : Char} :
    ∀ {p : List Char}, sep ∉ p → splitSep sep p = [p]
  | [], _ => rfl
  | c :: cs, h => by
    rw [splitSep]
    have hc : ¬ c = sep := fun hc => h (hc ▸ List.mem_cons_self c cs)
    rw [splitSep_of_not_mem fun hm => h (List.mem_cons_of_mem c hm)]
    simp [hc]

theorem splitSep_append_cons {sep : Char} :
    ∀ {p : List Char}, sep ∉ p → ∀ rest : List Char,
      splitSep sep (p ++ sep :: rest) = p :: splitSep sep rest
  | [], _, rest => by
    rw [List.nil_append, splitSep]
    cases h : splitSep sep rest with
    | nil => exact absurd h (splitSep_ne_nil sep rest)
    | cons q qs => simp
  | c :: cs, h, rest => by
    rw [List.cons_append, splitSep]
    have hc : ¬ c = sep := fun hc => h (hc ▸ List.mem_cons_self c cs)
    rw [splitSep_append_cons (fun hm => h (List.mem_cons_of_mem c hm)) rest]
    simp [hc]

theorem splitSep_joinSep {sep : Char} :
    ∀ {ps : List (List Char)}, ps ≠ [] → (∀ p ∈ ps, sep ∉ p) →
      splitSep sep (joinSep sep ps) = ps
  | [], h, _ => absurd rfl h
  | [p], _, hall => by
    rw [joinSep, splitSep_of_not_mem (hall p (List.mem_singleton_self p))]
  | p :: q :: ps, _, hall => by
    rw [joinSep, splitSep_append_cons (hall p (List.mem_cons_self p _)) _]
    rw [splitSep_joinSep (List.cons_ne_nil q ps) fun x hx => hall x (List.mem_cons_of_mem p hx)]
    exact fun h => absurd h (List.cons_ne_nil q ps)

theorem colon_not_mem_renderNat {n : Nat} : ':' ∉ renderNat n := fun h =>
  absurd rfl (isDigitChar_not_sep (renderNat_all_digits n ':' h)).2.1

theorem colon_not_mem_renderAmount {q : ℚ} : ':' ∉ renderAmount q := fun h => by
  rcases renderAmount_chars ':' h with hd | hd
  · exact absurd rfl (isDigitChar_not_sep hd).2.1
  · exact absurd hd (by decide)

theorem comma_not_mem_token {p : Nat} {a : ℚ} :
    ',' ∉ renderNat p ++ ':' :: renderAmount a := fun h => by
  rcases List.mem_append.mp h with hc | hc
  · exact absurd rfl (isDigitChar_not_sep (renderNat_all_digits p ',' hc)).2.2
  · rcases List.mem_cons.mp hc with hc | hc
    · exact absurd hc (by decide)
    · rcases renderAmount_chars ',' hc with hd | hd
      · exact absurd rfl (isDigitChar_not_sep hd).2.2
      · exact absurd hd (by decide)

theorem parsePairToken_render {p : Nat} {a : ℚ} (ha : DecimalRep a) :
    parsePairToken (renderNat p ++ ':' :: renderAmount a) = some (p, a) := by
  unfold parsePairToken
  rw [splitSep_append_cons colon_not_mem_renderNat _,
    splitSep_of_not_mem colon_not_mem_renderAmount]
  dsimp only
  rw [parseNatChars_renderNat, parseAmount_renderAmount ha]

theorem mapM_parsePairToken :
    ∀ {l : List (Nat × ℚ)}, (∀ x ∈ l, DecimalRep x.2) →
      (l.map fun x => renderNat x.1 ++ ':' :: renderAmount x.2).mapM parsePairToken
        = some l
  | [], _ => rfl
  | x :: l, h => by
    rw [List.map_cons, List.mapM_cons]
    rw [parsePairToken_render (h x (List.mem_cons_self x l))]
    rw [mapM_parsePairToken fun y hy => h y (List.mem_cons_of_mem x hy)]
    rfl

theorem mem_joinSep {sep : Char} :
    ∀ {ps : List (List Char)} {c : Char}, c ∈ joinSep sep ps → c = sep ∨ ∃ p ∈ ps, c ∈ p
  | [], c, h => absurd h (List.not_mem_nil c)
  | [p], c, h => Or.inr ⟨p, List.mem_singleton_self p, by simpa [joinSep] using h⟩
  | p :: q :: ps, c, h => by
    have hj : joinSep sep (p :: q :: ps) = p ++ sep :: joinSep sep (q :: ps) := rfl
    rw [hj] at h
    rcases List.mem_append.mp h with hc | hc
    · exact Or.inr ⟨p, List.mem_cons_self p _, hc⟩
    · rcases List.mem_cons.mp hc with hc | hc
      · exact Or.inl hc
      · rcases mem_joinSep hc with hc | ⟨x, hx, hcx⟩
        · exact Or.inl hc
        · exact Or.inr ⟨x, List.mem_cons_of_mem p hx, hcx⟩

/-- Claim C4, amended: for every marker collection sorted by period index
whose amounts are nonnegative finite decimals, at least one positive, and with
every positive amount inside JS's positional-notation range
`[10^-6, 10^21)`, `toApiString` returns exactly the comma-joined string of
`period_index:amount` entries for the markers with positive amount, in
ascending `period_index` order, as plain numerals with no whitespace (every
character is a digit, `:`, `,` or `.`), and parsing that string back into
`(period_index, amount)` pairs reproduces exactly the positive-amount markers
in ascending `period_index` order.  (Below `10^-6` JS prints exponential
notation — see the counterexample.) -/
theorem c4_serialization_roundtrip {st : OverpaymentStore}
    (hsorted : List.Sorted overLE st.chartOverpayments)
    (hdec : ∀ m ∈ st.chartOverpayments, DecimalRep m.amount)
    (hpos : ∃ m ∈ st.chartOverpayments, 0 < m.amount)
    (hrange : ∀ m ∈ st.chartOverpayments, 0 < m.amount →
      mkRat 1 1000000 ≤ m.amount ∧ m.amount < 1000000000000000000000) :
    toApiString st = some (joinSep ','
      (((st.chartOverpayments.filter fun m => decide (0 < m.amount)).map
        fun m => renderNat m.periodIndex ++ ':' :: renderAmount m.amount))) ∧
    parseApiChars (joinSep ','
      (((st.chartOverpayments.filter fun m => decide (0 < m.amount)).map
        fun m => renderNat m.periodIndex ++ ':' :: renderAmount m.amount))) =
      some ((st.chartOverpayments.filter fun m => decide (0 < m.amount)).map
        fun m => (m.periodIndex, m.amount)) ∧
    List.Sorted (fun x y : Nat × ℚ => x.1 ≤ y.1)
      ((st.chartOverpayments.filter fun m => decide (0 < m.amount)).map
        fun m => (m.periodIndex, m.amount)) ∧
    ∀ c ∈ joinSep ','
      (((st.chartOverpayments.filter fun m => decide (0 < m.amount)).map
        fun m => renderNat m.periodIndex ++ ':' :: renderAmount m.amount)),
      isDigitChar c = true ∨ c = ':' ∨ c = ',' ∨ c = '.' := by
  obtain ⟨m0, hm0, hm0pos⟩ := hpos
  have hm0f : m0 ∈ st.chartOverpayments.filter fun m => decide (0 < m.amount) :=
    List.mem_filter.mpr ⟨hm0, by simpa using hm0pos⟩
  have hLne : (st.chartOverpayments.filter fun m => decide (0 < m.amount)) ≠ [] :=
    List.ne_nil_of_mem hm0f
  have htok : (st.chartOverpayments.filter fun m => decide (0 < m.amount)).map
        (fun m => renderNat m.periodIndex ++ ':' :: renderAmountJS m.amount) =
      (st.chartOverpayments.filter fun m => decide (0 < m.amount)).map
        (fun m => renderNat m.periodIndex ++ ':' :: renderAmount m.amount) := by
    refine List.map_congr_left ?_
    intro m hm
    have hmm := List.mem_filter.mp hm
    have hr := hrange m hmm.1 (of_decide_eq_true hmm.2)
    rw [renderAmountJS, if_pos (Or.inr hr)]
  refine ⟨?_, ?_, ?_, ?_⟩
  · unfold toApiString
    rw [if_neg ?hne, htok]
    case hne =>
      have := List.ne_nil_of_mem hm0
      simpa [List.length_eq_zero] using this
  · unfold parseApiChars
    rw [splitSep_joinSep ?tne ?tcomma]
    case tne =>
      intro hc
      rw [List.map_eq_nil_iff] at hc
      exact hLne hc
    case tcomma =>
      intro tok htok
      obtain ⟨m, hm, htokm⟩ := List.mem_map.mp htok
      rw [← htokm]
      exact comma_not_mem_token
    have hcomp : ((st.chartOverpayments.filter fun m => decide (0 < m.amount)).map
        fun m => (m.periodIndex, m.amount)).map
          (fun x : Nat × ℚ => renderNat x.1 ++ ':' :: renderAmount x.2) =
        (st.chartOverpayments.filter fun m => decide (0 < m.amount)).map
          fun m => renderNat m.periodIndex ++ ':' :: renderAmount m.amount := by
      rw [List.map_map]
      rfl
    rw [← hcomp]
    refine mapM_parsePairToken ?_
    intro x hx
    obtain ⟨m, hm, hxm⟩ := List.mem_map.mp hx
    rw [← hxm]
    exact hdec m (List.mem_of_mem_filter hm)
  · rw [List.Sorted, List.pairwise_map]
    exact List.Pairwise.filter _ hsorted
  · intro c hc
    rcases mem_joinSep hc with hc | ⟨tok, htok, hctok⟩
    · exact Or.inr (Or.inr (Or.inl hc))
    · obtain ⟨m, hm, htokm⟩ := List.mem_map.mp htok
      rw [← htokm] at hctok
      rcases List.mem_append.mp hctok with hcc | hcc
      · exact Or.inl (renderNat_all_digits _ c hcc)
      · rcases List.mem_cons.mp hcc with hcc | hcc
        · exact Or.inr (Or.inl hcc)
        · rcases renderAmount_chars c hcc with hd | hd
          · exact Or.inl hd
          · exact Or.inr (Or.inr (Or.inr hd))

/-- Concrete check of claim C4 at a two-marker store (markers at periods 3 and
12 with amounts 250 and 500). -/
theorem c4_serialization_roundtrip_witness :
    (List.Sorted overLE
        [ChartOverpayment.mk 0 3 250 [] false, ChartOverpayment.mk 1 12 500 [] false] ∧
      (∀ m ∈ [ChartOverpayment.mk 0 3 250 [] false, ChartOverpayment.mk 1 12 500 [] false],
        DecimalRep m.amount) ∧
      (∃ m ∈ [ChartOverpayment.mk 0 3 250 [] false, ChartOverpayment.mk 1 12 500 [] false],
        (0:ℚ) < m.amount) ∧
      (∀ m ∈ [ChartOverpayment.mk 0 3 250 [] false, ChartOverpayment.mk 1 12 500 [] false],
        0 < m.amount →
          mkRat 1 1000000 ≤ m.amount ∧ m.amount < 1000000000000000000000)) ∧
    toApiString
        (OverpaymentStore.mk
          [ChartOverpayment.mk 0 3 250 [] false, ChartOverpayment.mk 1 12 500 [] false]
          none none 2) =
      some (joinSep ','
        ((([ChartOverpayment.mk 0 3 250 [] false,
            ChartOverpayment.mk 1 12 500 [] false].filter fun m => decide (0 < m.amount)).map
          fun m => renderNat m.periodIndex ++ ':' :: renderAmount m.amount))) ∧
    parseApiChars (joinSep ','
        ((([ChartOverpayment.mk 0 3 250 [] false,
            ChartOverpayment.mk 1 12 500 [] false].filter fun m => decide (0 < m.amount)).map
          fun m => renderNat m.periodIndex ++ ':' :: renderAmount m.amount))) =
      some [(3, (250:ℚ)), (12, (500:ℚ))] := by
  have hs : List.Sorted overLE
      [ChartOverpayment.mk 0 3 250 [] false, ChartOverpayment.mk 1 12 500 [] false] := by
    decide
  have hd : ∀ m ∈ [ChartOverpayment.mk 0 3 250 [] false,
      ChartOverpayment.mk 1 12 500 [] false], DecimalRep m.amount := by
    intro m hm
    rcases List.mem_cons.mp hm with rfl | hm
    · exact ⟨by decide, 0, by decide⟩
    rcases List.mem_cons.mp hm with rfl | hm
    · exact ⟨by decide, 0, by decide⟩
    · exact absurd hm (List.not_mem_nil m)
  have hp : ∃ m ∈ [ChartOverpayment.mk 0 3 250 [] false,
      ChartOverpayment.mk 1 12 500 [] false], (0:ℚ) < m.amount :=
    ⟨ChartOverpayment.mk 0 3 250 [] false,
      List.mem_cons_self (ChartOverpayment.mk 0 3 250 [] false)
        [ChartOverpayment.mk 1 12 500 [] false], by decide⟩
  have hr : ∀ m ∈ [ChartOverpayment.mk 0 3 250 [] false,
      ChartOverpayment.mk 1 12 500 [] false], 0 < m.amount →
        mkRat 1 1000000 ≤ m.amount ∧ m.amount < 1000000000000000000000 := by
    decide
  obtain ⟨h1, h2, _h3, _h4⟩ := @c4_serialization_roundtrip
    (OverpaymentStore.mk
      [ChartOverpayment.mk 0 3 250 [] false, ChartOverpayment.mk 1 12 500 [] false]
      none none 2) hs hd hp hr
  refine ⟨⟨hs, hd, hp, hr⟩, h1, ?_⟩
  rw [h2]
  rfl

/-- Claim C4, counterexample: the amount `10^-7` is admissible under the
original claim (a positive finite decimal, and it passes the popover's
`0 < v` and `v ≤ 10000000` checks), but JS prints it in exponential notation:
`toApiString` on `[{period_index: 5, amount: 1e-7}]` yields `"5:1e-7"`, which
contains the letter `e` — outside the claimed digits/`:`/`,`/`.` alphabet —
and the claimed parse of the string back into `(period_index, amount)` pairs
fails. -/
theorem c4_counterexample :
    mkRat 1 10000000 = 1 / 10000000 ∧
    DecimalRep (mkRat 1 10000000) ∧ (0 : ℚ) < mkRat 1 10000000 ∧
    toApiString
        (OverpaymentStore.mk [ChartOverpayment.mk 0 5 (mkRat 1 10000000) [] false]
          none none 1) =
      some ['5', ':', '1', 'e', '-', '7'] ∧
    ('e' ∈ (['5', ':', '1', 'e', '-', '7'] : List Char) ∧
      ¬(isDigitChar 'e' = true ∨ 'e' = ':' ∨ 'e' = ',' ∨ 'e' = '.')) ∧
    parseApiChars ['5', ':', '1', 'e', '-', '7'] = none := by
  refine ⟨by rw [Rat.mkRat_eq_div]; norm_num, ⟨by decide, 7, by decide⟩, by decide,
    by decide, ⟨by decide, by decide⟩, by decide⟩

end Mortgasim
